import Mathlib

/-!
Verification development for the repository file fetch_og_from_sitemap.py.

The Python source is shallowly embedded below.  Strings are modelled as
Lean strings; most string processing is carried out on the underlying
character lists.  Python dictionaries are modelled as association lists
where assignment updates an existing key in place and otherwise appends
at the end, matching insertion-ordered dict semantics.  Python standard
library routines used by the source (urllib.parse.urlparse, urlunparse,
urljoin, html.unescape, regular expression scans) are embedded for their
ASCII behaviour; each deviation from the full Unicode behaviour is noted
in a doc comment at the definition it concerns.
-/

/-- Python dict assignment on an association list: update the value of an
existing key in place, otherwise append the pair at the end. -/
def dinsert {α : Type} [DecidableEq α] {β : Type} (k : α) (v : β) : List (α × β) → List (α × β)
  | [] => [(k, v)]
  | (k2, v2) :: t => if k2 = k then (k, v) :: t else (k2, v2) :: dinsert k v t

/-- Python dict lookup (dict.get) on an association list. -/
def dlookup {α : Type} [DecidableEq α] {β : Type} (k : α) : List (α × β) → Option β
  | [] => none
  | (k2, v2) :: t => if k2 = k then some v2 else dlookup k t

/-- ASCII uppercase letter test, by character code. -/
def isUpperCh (c : Char) : Bool := 65 ≤ c.toNat && c.toNat ≤ 90

/-- ASCII lowercase conversion, the fragment of str.lower the source can
reach (scheme strings are validated to be ASCII before being lowered;
meta-attribute keys compared against ASCII literals are unaffected by
non-ASCII case folding). -/
def lowerCh (c : Char) : Char := if isUpperCh c then Char.ofNat (c.toNat + 32) else c

def lowerL (l : List Char) : List Char := l.map lowerCh

/-- Test used by the scheme check of urllib.parse.urlsplit:
url[0].isascii() and url[0].isalpha() is exactly an ASCII letter test. -/
def isAsciiAlphaCh (c : Char) : Bool :=
  (65 ≤ c.toNat && c.toNat ≤ 90) || (97 ≤ c.toNat && c.toNat ≤ 122)

def isAsciiDigitCh (c : Char) : Bool := 48 ≤ c.toNat && c.toNat ≤ 57

/-- Characters allowed after the first character of a URL scheme
(letters, digits, plus, minus, dot). -/
def isSchemeChar (c : Char) : Bool :=
  isAsciiAlphaCh c || isAsciiDigitCh c || c.toNat = 43 || c.toNat = 45 || c.toNat = 46

/-- WHATWG C0-control-or-space class stripped from the front of a URL by
urllib.parse.urlsplit. -/
def isC0OrSpace (c : Char) : Bool := c.toNat ≤ 32

/-- The unsafe URL bytes (tab, carriage return, line feed) removed
everywhere by urllib.parse.urlsplit. -/
def isTabCrLf (c : Char) : Bool := c.toNat = 9 || c.toNat = 13 || c.toNat = 10

/-- ASCII character test (str.isascii on a single character). -/
def isAsciiCh (c : Char) : Bool := c.toNat ≤ 127

/-- Delimiters ending the network-location part: slash, question mark,
hash. -/
def isNetlocDelim (c : Char) : Bool := c.toNat = 47 || c.toNat = 63 || c.toNat = 35

/-- str.split(d, 1) guarded by a membership test, as urlsplit does for
the fragment and query parts: if the delimiter occurs, return the text
before its first occurrence and the text after it, otherwise return the
input unsplit. -/
def pySplitOnce (d : Char) (l : List Char) : List Char × List Char :=
  if l.contains d then
    (l.takeWhile (fun c => c ≠ d), (l.dropWhile (fun c => c ≠ d)).drop 1)
  else (l, [])

/-- The scheme-splitting step of urllib.parse.urlsplit: split at the
first colon when the text before it is a nonempty valid scheme (ASCII
letter first, scheme characters after), lowering the scheme; otherwise
leave the URL untouched with an empty scheme. -/
def splitSchemeL (l : List Char) : List Char × List Char :=
  if (l.dropWhile (fun c => c ≠ ':')).isEmpty then ([], l)
  else if (l.takeWhile (fun c => c ≠ ':')).isEmpty then ([], l)
  else if isAsciiAlphaCh ((l.takeWhile (fun c => c ≠ ':')).headD ' ') &&
      ((l.takeWhile (fun c => c ≠ ':')).drop 1).all isSchemeChar then
    (lowerL (l.takeWhile (fun c => c ≠ ':')), (l.dropWhile (fun c => c ≠ ':')).drop 1)
  else ([], l)

structure PySplitResult where
  scheme : List Char
  netloc : List Char
  path : List Char
  query : List Char
  frag : List Char
deriving DecidableEq, Repr

/-- Model of urllib.parse.urlsplit (modern CPython).  The input is
lstripped of C0 controls and spaces, tab, carriage return and line feed
are removed everywhere, the scheme is split off, a network location is
split off after a double slash, then fragment and query are split off.
The none result is conservative: netlocs containing a square bracket
return none (CPython rejects unbalanced brackets and invalid bracketed
hosts but accepts balanced IP literals such as [::1]), and non-ASCII
netlocs return none (CPython applies an NFKC check that rejects only
some of them).  A some result agrees with CPython; a none result
covers both CPython failures and these conservatively rejected
successes, so positive side conditions below (normIdemOKL) are false
whenever this model returns none. -/
def pyUrlsplitL (input : List Char) : Option PySplitResult :=
  let u1 := (input.dropWhile isC0OrSpace).filter (fun c => !isTabCrLf c)
  let scheme := (splitSchemeL u1).1
  let r1 := (splitSchemeL u1).2
  if r1.take 2 = ['/', '/'] then
    let netloc := (r1.drop 2).takeWhile (fun c => !isNetlocDelim c)
    let r2 := (r1.drop 2).dropWhile (fun c => !isNetlocDelim c)
    if netloc.contains '[' || netloc.contains ']' then none
    else if !netloc.all isAsciiCh then none
    else
      let r3 := (pySplitOnce '#' r2).1
      some ⟨scheme, netloc, (pySplitOnce '?' r3).1, (pySplitOnce '?' r3).2,
        (pySplitOnce '#' r2).2⟩
  else
    let r3 := (pySplitOnce '#' r1).1
    some ⟨scheme, [], (pySplitOnce '?' r3).1, (pySplitOnce '?' r3).2,
      (pySplitOnce '#' r1).2⟩

/-- The schemes of urllib.parse.uses_params, for which urlparse splits
path parameters. -/
def usesParamsSchemes : List (List Char) :=
  [[], "ftp".toList, "hdl".toList, "prospero".toList, "http".toList, "imap".toList,
   "https".toList, "shttp".toList, "rtsp".toList, "rtsps".toList, "rtspu".toList,
   "sip".toList, "sips".toList, "mms".toList, "sftp".toList, "tel".toList]

/-- The schemes of urllib.parse.uses_netloc, for which urlunsplit emits
a double slash even when the netloc is empty. -/
def usesNetlocSchemes : List (List Char) :=
  [[], "ftp".toList, "http".toList, "gopher".toList, "nntp".toList, "telnet".toList,
   "imap".toList, "wais".toList, "file".toList, "mms".toList, "https".toList,
   "shttp".toList, "snews".toList, "prospero".toList, "rtsp".toList, "rtsps".toList,
   "rtspu".toList, "rsync".toList, "svn".toList, "svn+ssh".toList, "sftp".toList,
   "nfs".toList, "git".toList, "git+ssh".toList, "ws".toList, "wss".toList]

/-- Model of urllib.parse._splitparams: split a semicolon parameter off
the last path segment (searching from the last slash when the path
contains one, from the start otherwise). -/
def pySplitParams (l : List Char) : List Char × List Char :=
  if l.contains '/' then
    let s := (l.reverse.takeWhile (fun c => c ≠ '/')).reverse
    let p := l.take (l.length - s.length)
    if s.contains ';' then
      (p ++ s.takeWhile (fun c => c ≠ ';'), (s.dropWhile (fun c => c ≠ ';')).drop 1)
    else (l, [])
  else (l.takeWhile (fun c => c ≠ ';'), (l.dropWhile (fun c => c ≠ ';')).drop 1)

structure PyParseResult where
  scheme : List Char
  netloc : List Char
  path : List Char
  params : List Char
  query : List Char
  frag : List Char
deriving DecidableEq, Repr

/-- Model of urllib.parse.urlparse: urlsplit plus the parameter split,
applied only for schemes in uses_params when the path contains a
semicolon. -/
def pyUrlparseL (l : List Char) : Option PyParseResult :=
  match pyUrlsplitL l with
  | none => none
  | some r =>
    if usesParamsSchemes.contains r.scheme && r.path.contains ';' then
      some ⟨r.scheme, r.netloc, (pySplitParams r.path).1, (pySplitParams r.path).2,
        r.query, r.frag⟩
    else some ⟨r.scheme, r.netloc, r.path, [], r.query, r.frag⟩

/-- The netloc-joining step of urllib.parse.urlunsplit (modern
CPython): the double slash is emitted when a netloc is present, or when
the scheme is nonempty, in uses_netloc, and the path does not already
begin with a double slash; a nonempty path not starting with a slash
gets one prepended. -/
def urlJoinNetloc (scheme netloc path : List Char) : List Char :=
  if !netloc.isEmpty ||
      (!scheme.isEmpty && usesNetlocSchemes.contains scheme && path.take 2 ≠ ['/', '/']) then
    '/' :: '/' :: (netloc ++ (if !path.isEmpty && path.take 1 ≠ ['/'] then '/' :: path
      else path))
  else path

def urlJoinScheme (scheme url : List Char) : List Char :=
  if !scheme.isEmpty then scheme ++ ':' :: url else url

def urlJoinQuery (url query : List Char) : List Char :=
  if !query.isEmpty then url ++ '?' :: query else url

def urlJoinFrag (url frag : List Char) : List Char :=
  if !frag.isEmpty then url ++ '#' :: frag else url

/-- Model of urllib.parse.urlunsplit (modern CPython), composed from
its four joining steps. -/
def pyUrlunsplitL (scheme netloc path query frag : List Char) : List Char :=
  urlJoinFrag (urlJoinQuery (urlJoinScheme scheme (urlJoinNetloc scheme netloc path)) query)
    frag

/-- Model of urllib.parse.urlunparse: rejoin parameters when present,
then urlunsplit. -/
def pyUrlunparseL (scheme netloc path params query frag : List Char) : List Char :=
  let url := if !params.isEmpty then path ++ ';' :: params else path
  pyUrlunsplitL scheme netloc url query frag

/-- The trailing-slash strip of normalize_url: remove exactly one final
slash when the path is not just the root slash. -/
def stripOneSlash (p : List Char) : List Char :=
  if p ≠ ['/'] ∧ p.getLast? = some '/' then p.dropLast else p

/-- List-level body of normalize_url from fetch_og_from_sitemap.py:
parse, default the scheme to https, default the path to the root slash,
strip one trailing slash from a non-root path, and unparse with empty
params, query and fragment.  The try/except returns the input unchanged
when parsing raises. -/
def normalizeUrlL (l : List Char) : List Char :=
  match pyUrlparseL l with
  | none => l
  | some r =>
    let scheme := if r.scheme = [] then "https".toList else r.scheme
    let path0 := if r.path = [] then "/".toList else r.path
    let path1 := stripOneSlash path0
    pyUrlunparseL scheme r.netloc path1 [] [] []

/-- normalize_url from fetch_og_from_sitemap.py. -/
def normalize_url (s : String) : String := String.mk (normalizeUrlL s.toList)

/-- The parameter split urlparse would perform on path p under scheme
sch is a no-op. -/
def paramNoop (sch p : List Char) : Bool :=
  if usesParamsSchemes.contains sch && p.contains ';' then
    decide (pySplitParams p = (p, []))
  else true

/-- Side condition under which normalize_url is idempotent at s: the
model parse must succeed (so the condition is false for every bracketed
or non-ASCII netloc, where the parse model is conservative), and the
path that reparsing the normalized output would see (the once-stripped
path, slash-prefixed when urlunsplit prepends a slash) must neither
still end in a non-root trailing slash, nor lose a semicolon parameter
on reparse, and an empty netloc must not sit before a path starting
with a double slash.  Inputs whose parsed path ends in two or more
slashes falsify this condition. -/
def normIdemOKL (l : List Char) : Bool :=
  match pyUrlparseL l with
  | none => false
  | some r =>
    let scheme2 := if r.scheme = [] then "https".toList else r.scheme
    let p := if r.path = [] then "/".toList else r.path
    let p1 := stripOneSlash p
    let p2 :=
      if r.netloc = [] && usesNetlocSchemes.contains scheme2 && !p1.isEmpty &&
          decide (p1.take 1 ≠ ['/']) then '/' :: p1
      else p1
    (decide (r.netloc = [] → p1.take 2 ≠ ['/', '/'])) &&
      decide (stripOneSlash p2 = p2) && paramNoop scheme2 p2

def normalizeIdemOK (s : String) : Bool := normIdemOKL s.toList

/-! ## The store and pipeline model

main in fetch_og_from_sitemap.py builds an in-memory mapping from
normalized URL to a metadata record with title and image fields, each a
string or None.  Python None-or-string values are modelled as
Option String, where some of the empty string is a present empty string
(falsy in Python, like None). -/

/-- The metadata record held per URL in the store mapping. -/
structure Meta where
  title : Option String
  image : Option String
deriving DecidableEq, Repr

/-- The Python expression x or None on a string-or-None value: empty
strings collapse to None. -/
def pyOrNone (x : Option String) : Option String :=
  match x with
  | some s => if s = "" then none else some s
  | none => none

/-- Python truthiness of a string-or-None value. -/
def truthyO (x : Option String) : Bool :=
  match x with
  | some s => !(s = "")
  | none => false

/-- The result dict produced by fetch_og_for_url for one URL. -/
structure FetchItem where
  url : String
  title : Option String
  image : Option String
deriving DecidableEq, Repr

/-- One object of the items array of the persisted store file.  Its url
field is optional because loading reads it with item.get. -/
structure StoreItem where
  url : Option String
  title : Option String
  image : Option String
deriving DecidableEq, Repr

/-- The to_fetch selection of main (lines 362-366): a normalized target
URL is queued when overwriting, or absent from the loaded store, or
present with both title and image falsy. -/
def toFetch (overwrite : Bool) (existing : List (String × Meta)) (targets : List String) :
    List String :=
  targets.filter (fun u =>
    overwrite ||
      (match dlookup u existing with
       | none => true
       | some m => !truthyO m.title && !truthyO m.image))

/-- Falsy-to-None coercion of a stored metadata record, as applied when
main rebuilds the mapping (lines 379-383). -/
def coerceM (m : Meta) : Meta := ⟨pyOrNone m.title, pyOrNone m.image⟩

/-- Falsy-to-None coercion of a fetched result, as applied when main
overlays results (lines 385-392). -/
def coerceF (it : FetchItem) : Meta := ⟨pyOrNone it.title, pyOrNone it.image⟩

/-- The merge of main (lines 377-392): start from an empty dict, write
every loaded entry with falsy fields coerced to None, then overlay every
fetched result the same way, skipping results whose url is falsy. -/
def buildMapping (existing : List (String × Meta)) (results : List FetchItem) :
    List (String × Meta) :=
  let base := existing.foldl (fun acc p => dinsert p.1 (coerceM p.2) acc) []
  results.foldl (fun acc it => if it.url = "" then acc else dinsert it.url (coerceF it) acc) base

/-- The items array of the written payload (lines 394-397). -/
def payloadItems (mapping : List (String × Meta)) : List StoreItem :=
  mapping.map (fun p => ⟨some p.1, p.2.title, p.2.image⟩)

/-- Loading a prior store in the canonical items shape (lines 336-343):
keys are normalized, entries with a falsy url are dropped, and falsy
title and image fields are coerced to None. -/
def loadItemsShape (items : List StoreItem) : List (String × Meta) :=
  items.foldl (fun acc it =>
    match it.url with
    | some u => if u = "" then acc else
        dinsert (normalize_url u) ⟨pyOrNone it.title, pyOrNone it.image⟩ acc
    | none => acc) []

/-- Loading a prior store in the legacy direct-mapping shape (lines
344-349): keys are normalized and the title and image fields are taken
verbatim with no falsy coercion; a null metadata value yields a record
with both fields None. -/
def loadDictShape (entries : List (String × Option Meta)) : List (String × Meta) :=
  entries.foldl (fun acc p =>
    dinsert (normalize_url p.1) (match p.2 with
      | some m => m
      | none => ⟨none, none⟩) acc) []


/-! ## The HTML extraction model

extract_og_from_html scans meta tags found by the regular expression
RE_META_TAG, parses attributes with RE_ATTR, applies title and image
candidate rules with Python truthiness guards, breaks early once both
are set, then post-processes the title (entity unescape, strip, fall
back to the document title element).  The byte decode step (utf-8 with
replacement characters) cannot fail, so the input is modelled as the
decoded text. -/

/-- The ASCII whitespace class of regular-expression \s and of
str.strip with no argument (space, tab, newline, carriage return,
vertical tab, form feed).  Non-ASCII Unicode whitespace is not
modelled; no claim depends on it. -/
def isPySpace (c : Char) : Bool :=
  c.toNat = 32 || c.toNat = 9 || c.toNat = 10 || c.toNat = 13 || c.toNat = 11 || c.toNat = 12

/-- str.strip with no argument. -/
def pyStripL (l : List Char) : List Char :=
  ((l.dropWhile isPySpace).reverse.dropWhile isPySpace).reverse

/-- Case-insensitive literal prefix match; on success returns the rest
of the input. -/
def matchCI : List Char → List Char → Option (List Char)
  | [], l => some l
  | _ :: _, [] => none
  | p :: ps, c :: cs => if lowerCh c = lowerCh p then matchCI ps cs else none

/-- One attempted match of RE_META_TAG at the head of the input: the
literal meta opener (case-insensitive), at least one whitespace
character, then everything up to and including the first closing angle
bracket.  Returns the matched tag text and the rest of the input. -/
def tryMetaTag (l : List Char) : Option (List Char × List Char) :=
  match matchCI ("<meta".toList) l with
  | none => none
  | some r1 =>
    match r1 with
    | [] => none
    | c :: cs =>
      if isPySpace c then
        let body := (c :: cs).takeWhile (fun x => x ≠ '>')
        let rest := (c :: cs).dropWhile (fun x => x ≠ '>')
        match rest with
        | [] => none
        | _ :: afterGt => some (("<meta".toList ++ body) ++ ['>'], afterGt)
      else none

/-- Fueled scan implementing RE_META_TAG.findall: try a match at every
position, emitting non-overlapping matches left to right. -/
def findMetaTagsGo (fuel : Nat) (l : List Char) : List (List Char) :=
  match fuel with
  | 0 => []
  | fuel + 1 =>
    match l with
    | [] => []
    | _ :: rest =>
      match tryMetaTag l with
      | some (tag, suffix) => tag :: findMetaTagsGo fuel suffix
      | none => findMetaTagsGo fuel rest

def findMetaTags (l : List Char) : List (List Char) := findMetaTagsGo l.length l

/-- The attribute-name character class of RE_ATTR (letters, underscore,
colon, backslash, hyphen; the pattern has no digits). -/
def isAttrNameChar (c : Char) : Bool :=
  isAsciiAlphaCh c || c.toNat = 95 || c.toNat = 58 || c.toNat = 92 || c.toNat = 45

/-- One attempted match of RE_ATTR at the head of the input: a maximal
run of name characters, optional whitespace, an equals sign, optional
whitespace, a quote, then the raw value up to the first matching quote.
Returns name, raw value and the rest after the closing quote. -/
def tryAttrAt (l : List Char) : Option ((List Char × List Char) × List Char) :=
  let name := l.takeWhile isAttrNameChar
  if name.isEmpty then none
  else
    let r1 := (l.dropWhile isAttrNameChar).dropWhile isPySpace
    match r1 with
    | '=' :: r3 =>
      let r4 := r3.dropWhile isPySpace
      match r4 with
      | q :: r5 =>
        if q = '\'' || q = '"' then
          if r5.contains q then
            some ((name, r5.takeWhile (fun c => c ≠ q)), (r5.dropWhile (fun c => c ≠ q)).drop 1)
          else none
        else none
      | [] => none
    | _ => none

/-- Fueled scan implementing RE_ATTR.finditer combined with the dict
building of _parse_meta_attrs: keys are lowered, values stripped, and a
repeated key overwrites the earlier value. -/
def parseAttrsGo (fuel : Nat) (l : List Char) (acc : List (List Char × List Char)) :
    List (List Char × List Char) :=
  match fuel with
  | 0 => acc
  | fuel + 1 =>
    match l with
    | [] => acc
    | _ :: rest =>
      match tryAttrAt l with
      | some ((n, v), suffix) => parseAttrsGo fuel suffix (dinsert (lowerL n) (pyStripL v) acc)
      | none => parseAttrsGo fuel rest acc

/-- _parse_meta_attrs from fetch_og_from_sitemap.py. -/
def _parse_meta_attrs (tag : List Char) : List (List Char × List Char) :=
  parseAttrsGo tag.length tag []

/-- Python truthiness of an optional string value. -/
def truthyS (x : Option (List Char)) : Bool :=
  match x with
  | some s => !s.isEmpty
  | none => false

/-- The Python expression a or b or two quotes on optional string
values: the first truthy value, else the empty string. -/
def pyOr2 (a b : Option (List Char)) : List Char :=
  if truthyS a then a.getD [] else if truthyS b then b.getD [] else []

def kProperty : List Char := "property".toList
def kName : List Char := "name".toList
def kContent : List Char := "content".toList
def kValue : List Char := "value".toList
def kOgTitle : List Char := "og:title".toList
def kTwTitle : List Char := "twitter:title".toList
def kOgImage : List Char := "og:image".toList
def kOgImageSecure : List Char := "og:image:secure_url".toList
def kTwImage : List Char := "twitter:image".toList
def kTwImageSrc : List Char := "twitter:image:src".toList

/-- Simplified model of urllib.parse.urljoin, covering absolute
references, network-path references, absolute paths and naive relative
resolution without dot-segment handling.  It only occupies the
image-resolution slot of the extractor: no theorem below depends on the
value it returns, only on whether an image slot was filled. -/
def pyUrljoin (base rel : List Char) : List Char :=
  if base.isEmpty then rel
  else if rel.isEmpty then base
  else
    match pyUrlsplitL base with
    | none => rel
    | some rb =>
      if !(splitSchemeL rel).1.isEmpty then rel
      else if rel.take 2 = ['/', '/'] then rb.scheme ++ ':' :: rel
      else if rel.take 1 = ['/'] then pyUrlunsplitL rb.scheme rb.netloc rel [] []
      else
        let bdir := (rb.path.reverse.dropWhile (fun c => c ≠ '/')).reverse
        pyUrlunsplitL rb.scheme rb.netloc (bdir ++ rel) [] []

/-- The property key of a meta tag, as read by the scan loop: the
property attribute, else the name attribute, else empty, lowered. -/
def tagProp (tag : List Char) : List Char :=
  lowerL (pyOr2 (dlookup kProperty (_parse_meta_attrs tag))
    (dlookup kName (_parse_meta_attrs tag)))

/-- The content of a meta tag, as read by the scan loop: the content
attribute, else the value attribute, else empty. -/
def tagContent (tag : List Char) : List Char :=
  pyOr2 (dlookup kContent (_parse_meta_attrs tag)) (dlookup kValue (_parse_meta_attrs tag))

/-- The title update of one scan iteration: set once, never overwrite a
truthy title. -/
def scanStepT (t : Option (List Char)) (prop content : List Char) : Option (List Char) :=
  if !truthyS t ∧ (prop = kOgTitle ∨ prop = kTwTitle) then some (pyStripL content) else t

/-- The image update of one scan iteration: set once from the image
property chain, resolved against the base URL. -/
def scanStepI (baseUrl : List Char) (i : Option (List Char)) (prop content : List Char) :
    Option (List Char) :=
  if !truthyS i ∧ (prop = kOgImage ∨ prop = kOgImageSecure ∨
      prop = kTwImage ∨ prop = kTwImageSrc) then
    some (pyUrljoin baseUrl (pyStripL content)) else i

/-- The meta-tag loop of extract_og_from_html (lines 222-238) with its
early break once title and image are both truthy; a tag with falsy
content is skipped before the break check, as the continue statement
does. -/
def scanMetasBreak (baseUrl : List Char) :
    List (List Char) → Option (List Char) → Option (List Char) →
    Option (List Char) × Option (List Char)
  | [], t, i => (t, i)
  | tag :: rest, t, i =>
    if (tagContent tag).isEmpty then scanMetasBreak baseUrl rest t i
    else
      if truthyS (scanStepT t (tagProp tag) (tagContent tag)) &&
          truthyS (scanStepI baseUrl i (tagProp tag) (tagContent tag)) then
        (scanStepT t (tagProp tag) (tagContent tag),
         scanStepI baseUrl i (tagProp tag) (tagContent tag))
      else
        scanMetasBreak baseUrl rest (scanStepT t (tagProp tag) (tagContent tag))
          (scanStepI baseUrl i (tagProp tag) (tagContent tag))

/-- The same loop without the early break, scanning every tag: the
reference behaviour the early exit must refine. -/
def scanMetasAll (baseUrl : List Char) :
    List (List Char) → Option (List Char) → Option (List Char) →
    Option (List Char) × Option (List Char)
  | [], t, i => (t, i)
  | tag :: rest, t, i =>
    if (tagContent tag).isEmpty then scanMetasAll baseUrl rest t i
    else
      scanMetasAll baseUrl rest (scanStepT t (tagProp tag) (tagContent tag))
        (scanStepI baseUrl i (tagProp tag) (tagContent tag))

/-- A Unicode scalar value from a numeric character reference, with the
replacement character for invalid codes.  (The full html5 reference
table also remaps some control codes; that detail is outside the
modelled subset.) -/
def charFromCode (n : Nat) : Char :=
  if n < 55296 ∨ (57344 ≤ n ∧ n < 1114112) then Char.ofNat n else Char.ofNat 65533

def decDigitVal (c : Char) : Option Nat :=
  if 48 ≤ c.toNat ∧ c.toNat ≤ 57 then some (c.toNat - 48) else none

def hexDigitVal (c : Char) : Option Nat :=
  if 48 ≤ c.toNat ∧ c.toNat ≤ 57 then some (c.toNat - 48)
  else if 97 ≤ c.toNat ∧ c.toNat ≤ 102 then some (c.toNat - 87)
  else if 65 ≤ c.toNat ∧ c.toNat ≤ 70 then some (c.toNat - 55)
  else none

/-- Read a run of digits for a numeric character reference, requiring a
terminating semicolon.  Returns the code and the rest after the
semicolon. -/
def readDigitsGo (digitVal : Char → Option Nat) (fuel : Nat) (acc : Nat) (seen : Bool)
    (l : List Char) : Option (Nat × List Char) :=
  match fuel with
  | 0 => none
  | fuel + 1 =>
    match l with
    | [] => none
    | c :: rest =>
      if c = ';' then (if seen then some (acc, rest) else none)
      else
        match digitVal c with
        | some d => readDigitsGo digitVal fuel (acc * 16 + d) true rest
        | none => none

def readDecGo (fuel : Nat) (acc : Nat) (seen : Bool) (l : List Char) :
    Option (Nat × List Char) :=
  match fuel with
  | 0 => none
  | fuel + 1 =>
    match l with
    | [] => none
    | c :: rest =>
      if c = ';' then (if seen then some (acc, rest) else none)
      else
        match decDigitVal c with
        | some d => readDecGo fuel (acc * 10 + d) true rest
        | none => none

/-- The named character references modelled from html.unescape (the five
basic entities; the full html5 table of about two thousand names is
outside the modelled subset, and no claim depends on it). -/
def namedEntities : List (List Char × Char) :=
  [("amp;".toList, '&'), ("lt;".toList, '<'), ("gt;".toList, '>'),
   ("quot;".toList, '"'), ("apos;".toList, '\'')]

def tryNamedEntity (l : List Char) : List (List Char × Char) → Option (Char × List Char)
  | [] => none
  | (pat, ch) :: rest =>
    match matchCI pat l with
    | some suffix => some (ch, suffix)
    | none => tryNamedEntity l rest

/-- One attempted entity match after an ampersand. -/
def tryEntity (l : List Char) : Option (Char × List Char) :=
  match l with
  | '#' :: r1 =>
    (match r1 with
     | 'x' :: r2 =>
       (match readDigitsGo hexDigitVal r2.length 0 false r2 with
        | some (n, rest) => some (charFromCode n, rest)
        | none => none)
     | 'X' :: r2 =>
       (match readDigitsGo hexDigitVal r2.length 0 false r2 with
        | some (n, rest) => some (charFromCode n, rest)
        | none => none)
     | _ =>
       (match readDecGo r1.length 0 false r1 with
        | some (n, rest) => some (charFromCode n, rest)
        | none => none))
  | _ => tryNamedEntity l namedEntities

/-- Fueled model of html.unescape restricted to numeric references and
the basic named entities; unrecognized ampersand sequences are left
unchanged. -/
def pyUnescapeGo (fuel : Nat) (l : List Char) : List Char :=
  match fuel with
  | 0 => l
  | fuel + 1 =>
    match l with
    | [] => []
    | '&' :: rest =>
      (match tryEntity rest with
       | some (c, suffix) => c :: pyUnescapeGo fuel suffix
       | none => '&' :: pyUnescapeGo fuel rest)
    | c :: rest => c :: pyUnescapeGo fuel rest

def pyUnescape (l : List Char) : List Char := pyUnescapeGo l.length l

/-- str.split with no argument: the whitespace-separated words. -/
def pyWordsGo (fuel : Nat) (l : List Char) : List (List Char) :=
  match fuel with
  | 0 => []
  | fuel + 1 =>
    match l.dropWhile isPySpace with
    | [] => []
    | c :: rest =>
      (c :: rest.takeWhile (fun x => !isPySpace x)) ::
        pyWordsGo fuel (rest.dropWhile (fun x => !isPySpace x))

def pyWords (l : List Char) : List (List Char) := pyWordsGo l.length l

/-- The single-space join of str.split results used by the title
fallback. -/
def joinWords (ws : List (List Char)) : List Char := List.intercalate [' '] ws

/-- Model of RE_TITLE.search group capture: the first title element
opener (case-insensitive, any non-bracket attribute text, a closing
angle bracket), then the shortest content ending at the closing title
tag.  When the first opener is never completed by a closing tag no later
opener can be either, so the scan fails. -/
def takeUntilPat (fuel : Nat) (pat : List Char) (l : List Char) : Option (List Char × List Char) :=
  match fuel with
  | 0 => none
  | fuel + 1 =>
    match matchCI pat l with
    | some rest => some ([], rest)
    | none =>
      match l with
      | [] => none
      | c :: cs =>
        match takeUntilPat fuel pat cs with
        | some (pre, rest) => some (c :: pre, rest)
        | none => none

def findTitleGo (fuel : Nat) (l : List Char) : Option (List Char) :=
  match fuel with
  | 0 => none
  | fuel + 1 =>
    match l with
    | [] => none
    | _ :: rest =>
      match matchCI ("<title".toList) l with
      | some r1 =>
        if r1.contains '>' then
          let after := (r1.dropWhile (fun c => c ≠ '>')).drop 1
          match takeUntilPat (after.length + 1) ("</title>".toList) after with
          | some (content, _) => some content
          | none => none
        else none
      | none => findTitleGo fuel rest

def findTitleContent (l : List Char) : Option (List Char) := findTitleGo l.length l

/-- The unescape-and-strip step applied to a truthy scanned title
(lines 240-245); a falsy scanned title is left alone. -/
def extractT1 (t0 : Option (List Char)) : Option (List Char) :=
  match t0 with
  | some s => if !s.isEmpty then some (pyStripL (pyUnescape s)) else some s
  | none => none

/-- The title post-processing of extract_og_from_html: unescape and
strip a truthy scanned title, then fall back to the collapsed document
title element when the title is still falsy (lines 240-256). -/
def extractTitlePost (text : List Char) (t0 : Option (List Char)) : Option (List Char) :=
  if !truthyS (extractT1 t0) then
    match findTitleContent text with
    | some inner => some (pyStripL (pyUnescape (joinWords (pyWords inner))))
    | none => extractT1 t0
  else extractT1 t0

/-- List-level body of extract_og_from_html: scan the meta tags with the
early break, unescape and strip a truthy title, and fall back to the
collapsed document title element when the title is still falsy. -/
def extractOgL (text baseUrl : List Char) : Option (List Char) × Option (List Char) :=
  (extractTitlePost text (scanMetasBreak baseUrl (findMetaTags text) none none).1,
   (scanMetasBreak baseUrl (findMetaTags text) none none).2)

/-- extract_og_from_html from fetch_og_from_sitemap.py, on the decoded
document text (the utf-8 decode with replacement characters never
fails, so bytes are modelled by their decoded text). -/
def extract_og_from_html (html base_url : String) : Option String × Option String :=
  ((extractOgL html.toList base_url.toList).1.map String.mk,
   (extractOgL html.toList base_url.toList).2.map String.mk)

/-- The extraction exactly as extract_og_from_html but with the meta
scan running to completion instead of breaking early; stated from the
specification sentence that scanning to completion must yield the same
result. -/
def extractOgNoBreakL (text baseUrl : List Char) : Option (List Char) × Option (List Char) :=
  (extractTitlePost text (scanMetasAll baseUrl (findMetaTags text) none none).1,
   (scanMetasAll baseUrl (findMetaTags text) none none).2)

def extractOgNoBreak (html base_url : String) : Option String × Option String :=
  ((extractOgNoBreakL html.toList base_url.toList).1.map String.mk,
   (extractOgNoBreakL html.toList base_url.toList).2.map String.mk)

/-! ## The fetch and orchestration model -/

/-- fetch_og_for_url: network access is an oracle from URL to page text,
none meaning the request raised; a raised request yields the url with
both fields None (lines 260-269). -/
def fetch_og_for_url (oracle : String → Option String) (url : String) : FetchItem :=
  match oracle url with
  | none => ⟨url, none, none⟩
  | some page =>
    let r := extract_og_from_html page url
    ⟨url, r.1, r.2⟩

inductive SourceMode
  | auto
  | weekly
  | dashboard
deriving DecidableEq, Repr

/-- URL discovery of main (lines 299-310): auto tries the weekly
directory first and falls back to the dashboard source when it yields
nothing; the other modes use exactly their one source. -/
def discoverUrls (mode : SourceMode) (weeklyUrls dashUrls : List String) : List String :=
  match mode with
  | SourceMode.auto => if weeklyUrls ≠ [] then weeklyUrls else dashUrls
  | SourceMode.weekly => weeklyUrls
  | SourceMode.dashboard => dashUrls

/-- The dedupe and normalize pass of main (lines 317-323). -/
def dedupeNorm (seen : List String) : List String → List String
  | [] => []
  | u :: rest =>
    let nu := normalize_url u
    if nu ≠ "" ∧ ¬ seen.contains nu then nu :: dedupeNorm (nu :: seen) rest
    else dedupeNorm seen rest

/-- The limit slice of main (lines 325-326); a zero limit means no
limit. -/
def applyLimit (limit : Nat) (l : List String) : List String :=
  if 0 < limit then l.take limit else l

/-- main from URL discovery to the written payload: exit with an error
before writing anything when no URL was discovered, otherwise dedupe,
limit, load the prior store only in resume mode, queue the fetches,
fetch each queued URL through the oracle, merge and emit the items
payload.  The error value models the sys.exit(1) path, on which no
output file is written. -/
def runPipeline (mode : SourceMode) (weeklyUrls dashUrls : List String)
    (overwrite : Bool) (limit : Nat) (prior : List (String × Meta))
    (oracle : String → Option String) : Except Unit (List StoreItem) :=
  let urls := discoverUrls mode weeklyUrls dashUrls
  if urls = [] then Except.error () else
  let normUrls := applyLimit limit (dedupeNorm [] urls)
  let existing := if overwrite then [] else prior
  let targets := toFetch overwrite existing normUrls
  let results := targets.map (fetch_og_for_url oracle)
  Except.ok (payloadItems (buildMapping existing results))

/-! ## Helper lemmas about the dictionary model -/

theorem dlookup_dinsert {α : Type} [DecidableEq α] {β : Type} (k u : α) (v : β)
    (m : List (α × β)) :
    dlookup u (dinsert k v m) = if u = k then some v else dlookup u m := by
  induction m with
  | nil =>
    by_cases h : u = k
    · simp [dinsert, dlookup, h]
    · have h3 : ¬ k = u := fun hh => h hh.symm
      simp [dinsert, dlookup, h, h3]
  | cons p t ih =>
    obtain ⟨k2, v2⟩ := p
    by_cases h2 : k2 = k
    · subst h2
      by_cases h : u = k2
      · subst h
        simp [dinsert, dlookup]
      · have h3 : ¬ k2 = u := fun hh => h hh.symm
        simp [dinsert, dlookup, h, h3]
    · by_cases h : k2 = u
      · subst h
        have h4 : ¬ k2 = k := h2
        simp [dinsert, dlookup, h4]
      · simp [dinsert, dlookup, h2, h, ih]

theorem mem_of_dlookup {α : Type} [DecidableEq α] {β : Type} {u : α} {v : β}
    {m : List (α × β)} (h : dlookup u m = some v) : (u, v) ∈ m := by
  induction m with
  | nil => simp [dlookup] at h
  | cons p t ih =>
    obtain ⟨k2, v2⟩ := p
    by_cases hk : k2 = u
    · subst hk
      simp [dlookup] at h
      simp [h]
    · simp [dlookup, hk] at h
      exact List.mem_cons_of_mem _ (ih h)

theorem mem_dinsert {α : Type} [DecidableEq α] {β : Type} {k : α} {v : β}
    {m : List (α × β)} {q : α × β} (h : q ∈ dinsert k v m) : q = (k, v) ∨ q ∈ m := by
  induction m with
  | nil => simp [dinsert] at h; simp [h]
  | cons p t ih =>
    obtain ⟨k2, v2⟩ := p
    by_cases hk : k2 = k
    · simp [dinsert, hk] at h
      rcases h with h | h
      · exact Or.inl (by simp [h])
      · exact Or.inr (List.mem_cons_of_mem _ h)
    · simp [dinsert, hk] at h
      rcases h with h | h
      · exact Or.inr (by simp [h])
      · rcases ih h with h2 | h2
        · exact Or.inl h2
        · exact Or.inr (List.mem_cons_of_mem _ h2)

/-- The last element of a list satisfying a predicate, mirroring which
write wins in a left fold of dict assignments. -/
def findLast {γ : Type} (p : γ → Bool) : List γ → Option γ
  | [] => none
  | x :: t =>
    match findLast p t with
    | some y => some y
    | none => if p x then some x else none

theorem findLast_eq_none {γ : Type} {p : γ → Bool} {l : List γ} :
    findLast p l = none ↔ ∀ x ∈ l, p x = false := by
  induction l with
  | nil => simp [findLast]
  | cons x t ih =>
    simp only [findLast]
    cases hf : findLast p t with
    | some y =>
      simp only [hf]
      constructor
      · intro h; exact absurd h (by simp)
      · intro h
        have := ih.mpr (fun z hz => h z (List.mem_cons_of_mem _ hz))
        rw [this] at hf; exact absurd hf (by simp)
    | none =>
      simp only [hf]
      by_cases hp : p x = true
      · simp [hp]
      · have hp2 : p x = false := by revert hp; cases p x <;> simp
        simp [hp2]
        intro z hz
        exact (ih.mp hf) z hz

theorem findLast_some {γ : Type} {p : γ → Bool} {l : List γ} {x : γ}
    (h : findLast p l = some x) : x ∈ l ∧ p x = true := by
  induction l with
  | nil => simp [findLast] at h
  | cons y t ih =>
    simp only [findLast] at h
    cases hf : findLast p t with
    | some z =>
      rw [hf] at h
      have h2 : z = x := by injection h
      subst h2
      obtain ⟨hz1, hz2⟩ := ih hf
      exact ⟨List.mem_cons_of_mem _ hz1, hz2⟩
    | none =>
      rw [hf] at h
      by_cases hp : p y = true
      · rw [if_pos hp] at h
        cases h
        exact ⟨List.mem_cons_self _ _, hp⟩
      · rw [if_neg hp] at h
        exact absurd h (by simp)

theorem eq_of_nodup_map {γ δ : Type} {f : γ → δ} {l : List γ}
    (h : (l.map f).Nodup) {x y : γ} (hx : x ∈ l) (hy : y ∈ l) (hf : f x = f y) : x = y := by
  induction l with
  | nil => simp at hx
  | cons a t ih =>
    simp only [List.map_cons, List.nodup_cons] at h
    rcases List.mem_cons.mp hx with rfl | hx2
    · rcases List.mem_cons.mp hy with rfl | hy2
      · rfl
      · exact absurd (hf ▸ List.mem_map_of_mem f hy2) h.1
    · rcases List.mem_cons.mp hy with rfl | hy2
      · exact absurd (hf ▸ List.mem_map_of_mem f hx2) h.1
      · exact ih h.2 hx2 hy2

theorem findLast_unique {γ : Type} {p : γ → Bool} {l : List γ} {x : γ}
    (hx : x ∈ l) (hp : p x = true)
    (huniq : ∀ y ∈ l, p y = true → y = x) : findLast p l = some x := by
  induction l with
  | nil => simp at hx
  | cons a t ih =>
    simp only [findLast]
    rcases List.mem_cons.mp hx with rfl | hx2
    · cases hf : findLast p t with
      | some z =>
        obtain ⟨hz1, hz2⟩ := findLast_some hf
        rw [huniq z (List.mem_cons_of_mem _ hz1) hz2]
      | none => rw [if_pos hp]
    · rw [ih hx2 (fun y hy hpy => huniq y (List.mem_cons_of_mem _ hy) hpy)]

theorem dlookup_foldl_existing (e : List (String × Meta)) (acc : List (String × Meta))
    (u : String) :
    dlookup u (e.foldl (fun a p => dinsert p.1 (coerceM p.2) a) acc) =
      match findLast (fun p => decide (p.1 = u)) e with
      | some p => some (coerceM p.2)
      | none => dlookup u acc := by
  induction e generalizing acc with
  | nil => simp [findLast]
  | cons p t ih =>
    simp only [List.foldl_cons, findLast]
    rw [ih]
    cases hf : findLast (fun q => decide (q.1 = u)) t with
    | some q => simp
    | none =>
      simp only []
      by_cases hp : p.1 = u
      · rw [if_pos (by simp [hp]), dlookup_dinsert, if_pos hp.symm]
      · rw [if_neg (by simp [hp]), dlookup_dinsert, if_neg (fun hh => hp hh.symm)]

theorem dlookup_foldl_results (r : List FetchItem) (acc : List (String × Meta)) (u : String) :
    dlookup u (r.foldl (fun a it => if it.url = "" then a else dinsert it.url (coerceF it) a)
      acc) =
      match findLast (fun it => !decide (it.url = "") && decide (it.url = u)) r with
      | some it => some (coerceF it)
      | none => dlookup u acc := by
  induction r generalizing acc with
  | nil => simp [findLast]
  | cons it t ih =>
    simp only [List.foldl_cons, findLast]
    rw [ih]
    cases hf : findLast (fun x => !decide (x.url = "") && decide (x.url = u)) t with
    | some q => simp
    | none =>
      simp only []
      by_cases he : it.url = ""
      · rw [if_pos he]
        rw [if_neg (by simp [he])]
      · by_cases hp : it.url = u
        · rw [if_neg he, if_pos (by rw [hp] at he; simp [he, hp]), dlookup_dinsert,
            if_pos hp.symm]
        · rw [if_neg he, if_neg (by simp [hp]), dlookup_dinsert,
            if_neg (fun hh => hp hh.symm)]

theorem dlookup_buildMapping (e : List (String × Meta)) (r : List FetchItem) (u : String) :
    dlookup u (buildMapping e r) =
      match findLast (fun it => !decide (it.url = "") && decide (it.url = u)) r with
      | some it => some (coerceF it)
      | none =>
        match findLast (fun p => decide (p.1 = u)) e with
        | some p => some (coerceM p.2)
        | none => none := by
  unfold buildMapping
  rw [dlookup_foldl_results, dlookup_foldl_existing]
  rfl

theorem findLast_existing_of_nodup {e : List (String × Meta)} {u : String} {m : Meta}
    (he : (e.map Prod.fst).Nodup) (h : dlookup u e = some m) :
    findLast (fun p => decide (p.1 = u)) e = some (u, m) := by
  have hmem : (u, m) ∈ e := mem_of_dlookup h
  apply findLast_unique hmem (by simp)
  intro y hy hpy
  have hy1 : y.1 = u := by simpa using hpy
  exact eq_of_nodup_map he hy hmem (by simp [hy1])

theorem findLast_results_of_nodup {r : List FetchItem} {it : FetchItem}
    (hr : (r.map FetchItem.url).Nodup) (hmem : it ∈ r) (hne : ¬ it.url = "") :
    findLast (fun x => !decide (x.url = "") && decide (x.url = it.url)) r = some it := by
  apply findLast_unique hmem (by simp [hne])
  intro y hy hpy
  simp only [Bool.and_eq_true, Bool.not_eq_true', decide_eq_false_iff_not,
    decide_eq_true_eq] at hpy
  exact eq_of_nodup_map hr hy hmem hpy.2

theorem pyOrNone_spec (x : Option String) :
    pyOrNone x = none ∨ ∃ s, pyOrNone x = some s ∧ s ≠ "" := by
  cases x with
  | none => exact Or.inl rfl
  | some s =>
    by_cases h : s = ""
    · exact Or.inl (by simp [pyOrNone, h])
    · exact Or.inr ⟨s, by simp [pyOrNone, h], h⟩

/-- A metadata record whose fields are each None or a nonempty string. -/
def cleanMeta (m : Meta) : Prop :=
  (m.title = none ∨ ∃ s, m.title = some s ∧ s ≠ "") ∧
    (m.image = none ∨ ∃ s, m.image = some s ∧ s ≠ "")

theorem cleanMeta_coerce (t i : Option String) : cleanMeta ⟨pyOrNone t, pyOrNone i⟩ :=
  ⟨pyOrNone_spec t, pyOrNone_spec i⟩

theorem mem_foldl_existing {e : List (String × Meta)} {acc : List (String × Meta)}
    {q : String × Meta}
    (h : q ∈ e.foldl (fun a p => dinsert p.1 (coerceM p.2) a) acc) :
    (∃ p, p ∈ e ∧ q.2 = coerceM p.2) ∨ q ∈ acc := by
  induction e generalizing acc with
  | nil => exact Or.inr h
  | cons p t ih =>
    simp only [List.foldl_cons] at h
    rcases ih h with h2 | h2
    · obtain ⟨p2, hp2, hv⟩ := h2
      exact Or.inl ⟨p2, List.mem_cons_of_mem _ hp2, hv⟩
    · rcases mem_dinsert h2 with h3 | h3
      · exact Or.inl ⟨p, List.mem_cons_self _ _, by rw [h3]⟩
      · exact Or.inr h3

theorem mem_foldl_results {r : List FetchItem} {acc : List (String × Meta)}
    {q : String × Meta}
    (h : q ∈ r.foldl (fun a it => if it.url = "" then a else dinsert it.url (coerceF it) a)
      acc) :
    (∃ it, it ∈ r ∧ q.2 = coerceF it) ∨ q ∈ acc := by
  induction r generalizing acc with
  | nil => exact Or.inr h
  | cons it t ih =>
    simp only [List.foldl_cons] at h
    rcases ih h with h2 | h2
    · obtain ⟨it2, hit2, hv⟩ := h2
      exact Or.inl ⟨it2, List.mem_cons_of_mem _ hit2, hv⟩
    · by_cases he : it.url = ""
      · rw [if_pos he] at h2
        exact Or.inr h2
      · rw [if_neg he] at h2
        rcases mem_dinsert h2 with h3 | h3
        · exact Or.inl ⟨it, List.mem_cons_self _ _, by rw [h3]⟩
        · exact Or.inr h3

theorem cleanMeta_buildMapping {e : List (String × Meta)} {r : List FetchItem}
    {q : String × Meta} (h : q ∈ buildMapping e r) : cleanMeta q.2 := by
  unfold buildMapping at h
  rcases mem_foldl_results h with h2 | h2
  · obtain ⟨it, _, hv⟩ := h2
    rw [hv]
    exact cleanMeta_coerce _ _
  · rcases mem_foldl_existing h2 with h3 | h3
    · obtain ⟨p, _, hv⟩ := h3
      rw [hv]
      exact cleanMeta_coerce _ _
    · simp at h3

theorem mem_foldl_load {items : List StoreItem} {acc : List (String × Meta)}
    {q : String × Meta}
    (h : q ∈ items.foldl (fun a it =>
      match it.url with
      | some u => if u = "" then a else
          dinsert (normalize_url u) ⟨pyOrNone it.title, pyOrNone it.image⟩ a
      | none => a) acc) :
    (∃ it, it ∈ items ∧ q.2 = (⟨pyOrNone it.title, pyOrNone it.image⟩ : Meta)) ∨ q ∈ acc := by
  induction items generalizing acc with
  | nil => exact Or.inr h
  | cons it t ih =>
    simp only [List.foldl_cons] at h
    rcases ih h with h2 | h2
    · obtain ⟨it2, hit2, hv⟩ := h2
      exact Or.inl ⟨it2, List.mem_cons_of_mem _ hit2, hv⟩
    · cases hu : it.url with
      | none =>
        rw [hu] at h2
        exact Or.inr h2
      | some u =>
        rw [hu] at h2
        have h2b : q ∈ (if u = "" then acc else
            dinsert (normalize_url u) (⟨pyOrNone it.title, pyOrNone it.image⟩ : Meta) acc) := h2
        by_cases he : u = ""
        · rw [if_pos he] at h2b
          exact Or.inr h2b
        · rw [if_neg he] at h2b
          rcases mem_dinsert h2b with h3 | h3
          · exact Or.inl ⟨it, List.mem_cons_self _ _, by rw [h3]⟩
          · exact Or.inr h3

/-! ## Lemmas about the meta-tag scan -/

theorem scanStepT_of_truthy {t : Option (List Char)} (ht : truthyS t = true)
    (p c : List Char) : scanStepT t p c = t := by
  unfold scanStepT
  rw [if_neg]
  intro hh
  rw [ht] at hh
  simp at hh

theorem scanStepI_of_truthy {b : List Char} {i : Option (List Char)} (hi : truthyS i = true)
    (p c : List Char) : scanStepI b i p c = i := by
  unfold scanStepI
  rw [if_neg]
  intro hh
  rw [hi] at hh
  simp at hh

theorem scanMetasAll_fixed (b : List Char) (tags : List (List Char))
    (t i : Option (List Char)) (ht : truthyS t = true) (hi : truthyS i = true) :
    scanMetasAll b tags t i = (t, i) := by
  induction tags with
  | nil => rfl
  | cons tag rest ih =>
    simp only [scanMetasAll]
    rw [scanStepT_of_truthy ht, scanStepI_of_truthy hi]
    split
    · exact ih
    · exact ih

theorem scanMetasBreak_eq_scanMetasAll (b : List Char) (tags : List (List Char))
    (t i : Option (List Char)) : scanMetasBreak b tags t i = scanMetasAll b tags t i := by
  induction tags generalizing t i with
  | nil => rfl
  | cons tag rest ih =>
    simp only [scanMetasBreak, scanMetasAll]
    split
    · exact ih t i
    · split
      · next hbr =>
        rcases Bool.and_eq_true _ _ ▸ hbr with ⟨h1, h2⟩
        rw [scanMetasAll_fixed _ _ _ _ h1 h2]
      · exact ih _ _

theorem dropWhile_head_not {γ : Type} {p : γ → Bool} {l : List γ} {c : γ}
    (h : (l.dropWhile p).head? = some c) : p c = false := by
  induction l with
  | nil => simp at h
  | cons a t ih =>
    by_cases hp : p a = true
    · rw [List.dropWhile_cons_of_pos hp] at h
      exact ih h
    · rw [List.dropWhile_cons_of_neg (by simp [hp])] at h
      simp at h
      rw [← h]
      revert hp
      cases p a <;> simp

theorem head?_some_mem {γ : Type} {l : List γ} {x : γ} (h : l.head? = some x) : x ∈ l := by
  cases l with
  | nil => simp at h
  | cons a t =>
    simp at h
    simp [h]

theorem dlookup_none_forall {α : Type} [DecidableEq α] {β : Type} {u : α}
    {e : List (α × β)} (h : dlookup u e = none) : ∀ x ∈ e, x.1 ≠ u := by
  induction e with
  | nil => simp
  | cons p t ih =>
    obtain ⟨k2, v2⟩ := p
    by_cases hk : k2 = u
    · simp [dlookup, hk] at h
    · simp [dlookup, hk] at h
      intro x hx
      rcases List.mem_cons.mp hx with rfl | hx2
      · exact hk
      · exact ih h x hx2

/-- C2: a URL is queued for fetching exactly when it is a target and
either the overwrite flag is set, or it is absent from the loaded store,
or its stored entry has both title and image falsy. -/
theorem c2_to_fetch_partition (overwrite : Bool) (existing : List (String × Meta))
    (targets : List String) (u : String) :
    u ∈ toFetch overwrite existing targets ↔
      u ∈ targets ∧ (overwrite = true ∨ dlookup u existing = none ∨
        ∃ m, dlookup u existing = some m ∧ truthyO m.title = false ∧
          truthyO m.image = false) := by
  unfold toFetch
  rw [List.mem_filter]
  apply and_congr_right
  intro _
  cases overwrite with
  | true => simp
  | false =>
    simp only [Bool.false_or]
    cases hdl : dlookup u existing with
    | none => simp [hdl]
    | some m =>
      simp only [hdl]
      constructor
      · intro hb
        rcases Bool.and_eq_true _ _ ▸ hb with ⟨h1, h2⟩
        refine Or.inr (Or.inr ⟨m, rfl, ?_, ?_⟩)
        · revert h1; cases truthyO m.title <;> simp
        · revert h2; cases truthyO m.image <;> simp
      · intro hb
        rcases hb with hb | hb | ⟨m2, hm2, h1, h2⟩
        · simp at hb
        · simp at hb
        · have hm : m2 = m := by injection hm2 with hh; exact hh.symm
          subst hm
          simp [h1, h2]

/-! ## Claim C3: merge precedence and frame -/

/-- C3 counterexample: a loaded store entry whose title is the empty
string is not carried into the merged mapping unchanged — the merge
coerces the empty string to None even when no fetch result touches the
key. -/
theorem c3_counterexample :
    dlookup ("u") (buildMapping [(("u"), (⟨some (""), none⟩ : Meta))] []) =
        some (⟨none, none⟩ : Meta) ∧
      (⟨none, none⟩ : Meta) ≠ (⟨some (""), none⟩ : Meta) :=
  ⟨rfl, by decide⟩

/-- C3 amended: in the merged mapping, a URL carried by some fetch
result (with distinct result URLs and a non-empty key) maps to that
freshly fetched metadata with falsy fields coerced to None, and a URL
touched by no fetch result maps to its loaded metadata with falsy
fields coerced to None — identical to the prior value except that
empty-string fields become None. -/
theorem c3_merge_overlay_coerced (e : List (String × Meta)) (r : List FetchItem)
    (u : String) (he : (e.map Prod.fst).Nodup) (hr : (r.map FetchItem.url).Nodup) :
    (∀ it, it ∈ r → it.url = u → u ≠ "" →
        dlookup u (buildMapping e r) = some (coerceF it)) ∧
    ((∀ it, it ∈ r → it.url ≠ u) →
        dlookup u (buildMapping e r) = (dlookup u e).map coerceM) := by
  constructor
  · intro it hit hurl hne
    rw [dlookup_buildMapping]
    have hf : findLast (fun x => !decide (x.url = "") && decide (x.url = u)) r = some it := by
      have h2 := findLast_results_of_nodup hr hit (by rw [hurl]; exact hne)
      rwa [hurl] at h2
    rw [hf]
  · intro hno
    rw [dlookup_buildMapping]
    have h1 : findLast (fun x => !decide (x.url = "") && decide (x.url = u)) r = none := by
      rw [findLast_eq_none]
      intro x hx
      simp [hno x hx]
    rw [h1]
    cases hdl : dlookup u e with
    | none =>
      have h2 : findLast (fun p => decide (p.1 = u)) e = none := by
        rw [findLast_eq_none]
        intro x hx
        simp [dlookup_none_forall hdl x hx]
      rw [h2]
      rfl
    | some m =>
      rw [findLast_existing_of_nodup he hdl]
      rfl

theorem c3_witness :
    dlookup ("a") (buildMapping [(("a"), (⟨some ("old"), none⟩ : Meta))]
        [(⟨("a"), some ("new"), none⟩ : FetchItem)]) =
      some (coerceF (⟨("a"), some ("new"), none⟩ : FetchItem)) :=
  (c3_merge_overlay_coerced [(("a"), (⟨some ("old"), none⟩ : Meta))]
      [(⟨("a"), some ("new"), none⟩ : FetchItem)] ("a") (by decide) (by decide)).1
    (⟨("a"), some ("new"), none⟩ : FetchItem) (by decide) rfl (by decide)

/-! ## Claim C5: normalization equivalence of the three example inputs -/

/-- C5 counterexample: the scheme-less input does not normalize to the
same key as the two https inputs — urlparse places the host of a
scheme-less URL in the path, so the defaulted scheme yields a different
key. -/
theorem c5_counterexample :
    normalize_url ("x.com/a") ≠ normalize_url ("https://x.com/a") := by decide

/-- C5 amended: the two https spellings agree on the same key, with the
trailing slash stripped; the scheme-less spelling yields the distinct
key in which the host sits in the path component. -/
theorem c5_normalization_keys :
    normalize_url ("https://x.com/a/") = ("https://x.com/a") ∧
      normalize_url ("https://x.com/a") = ("https://x.com/a") ∧
      normalize_url ("x.com/a") = ("https:///x.com/a") :=
  ⟨rfl, rfl, rfl⟩

/-! ## Claim C6: the early exit is an equivalent optimization -/

/-- C6: for every document and base URL, extraction with the early
break returns exactly what scanning every meta tag to completion
returns. -/
theorem c6_early_exit_equivalence (html base_url : String) :
    extract_og_from_html html base_url = extractOgNoBreak html base_url := by
  unfold extract_og_from_html extractOgNoBreak extractOgL extractOgNoBreakL
  rw [scanMetasBreak_eq_scanMetasAll]

/-! ## Claim C7: merge is independent of completion order -/

/-- C7: with distinct result URLs, the merged mapping assigns every URL
the same value no matter in which order the same set of fetch results
arrived. -/
theorem c7_merge_order_independent (e : List (String × Meta)) (r1 r2 : List FetchItem)
    (u : String) (hr : (r1.map FetchItem.url).Nodup) (hperm : r1.Perm r2) :
    dlookup u (buildMapping e r1) = dlookup u (buildMapping e r2) := by
  rw [dlookup_buildMapping, dlookup_buildMapping]
  have hr2 : (r2.map FetchItem.url).Nodup := ((hperm.map FetchItem.url).nodup_iff).mp hr
  cases hf : findLast (fun x => !decide (x.url = "") && decide (x.url = u)) r1 with
  | some it =>
    obtain ⟨hmem, hp⟩ := findLast_some hf
    simp only [Bool.and_eq_true, Bool.not_eq_true', decide_eq_false_iff_not,
      decide_eq_true_eq] at hp
    have hmem2 : it ∈ r2 := hperm.mem_iff.mp hmem
    have hf2 : findLast (fun x => !decide (x.url = "") && decide (x.url = u)) r2 =
        some it := by
      have h2 := findLast_results_of_nodup hr2 hmem2 hp.1
      rwa [hp.2] at h2
    rw [hf2]
  | none =>
    have hf2 : findLast (fun x => !decide (x.url = "") && decide (x.url = u)) r2 = none := by
      rw [findLast_eq_none] at hf ⊢
      intro x hx
      exact hf x (hperm.mem_iff.mpr hx)
    rw [hf2]

theorem c7_witness :
    dlookup ("a") (buildMapping []
        [(⟨("a"), some ("t"), none⟩ : FetchItem), (⟨("b"), none, none⟩ : FetchItem)]) =
      dlookup ("a") (buildMapping []
        [(⟨("b"), none, none⟩ : FetchItem), (⟨("a"), some ("t"), none⟩ : FetchItem)]) :=
  c7_merge_order_independent [] _ _ ("a") (by decide)
    (List.Perm.swap (⟨("b"), none, none⟩ : FetchItem) (⟨("a"), some ("t"), none⟩ : FetchItem) [])

/-! ## Claim C8: no entry is deleted -/

/-- C8 counterexample: a resume-mode run whose prior store holds the
entry for the URL string with a trailing slash; loading normalizes the
key, so the written output contains no item with the original URL
string and its metadata is not overwritten by any fetch result — the
entry does not survive under its own URL. -/
theorem c8_counterexample :
    runPipeline SourceMode.weekly [("https://x.com/a")] [] false 0
        (loadItemsShape [(⟨some ("https://x.com/a/"), some ("T"), none⟩ : StoreItem)])
        (fun _ => none) =
      Except.ok [(⟨some ("https://x.com/a"), some ("T"), none⟩ : StoreItem)] ∧
    (∀ it, it ∈ [(⟨some ("https://x.com/a"), some ("T"), none⟩ : StoreItem)] →
      it.url ≠ some ("https://x.com/a/")) :=
  ⟨rfl, by decide⟩

/-- C8 amended: every key of the loaded (normalized) store survives into
the merged mapping and into the written items array, carrying either its
prior metadata with falsy fields coerced to None or a freshly fetched
result; no key is removed.  The original un-normalized URL string of a
persisted entry need not itself appear. -/
theorem c8_no_key_deleted (e : List (String × Meta)) (r : List FetchItem) (u : String)
    (m : Meta) (he : (e.map Prod.fst).Nodup) (hu : dlookup u e = some m) :
    ∃ m2, dlookup u (buildMapping e r) = some m2 ∧
      ((∃ it, it ∈ r ∧ it.url = u ∧ m2 = coerceF it) ∨ m2 = coerceM m) ∧
      ∃ it2, it2 ∈ payloadItems (buildMapping e r) ∧ it2.url = some u ∧
        it2.title = m2.title ∧ it2.image = m2.image := by
  have hchar := dlookup_buildMapping e r u
  cases hf : findLast (fun x => !decide (x.url = "") && decide (x.url = u)) r with
  | some it =>
    rw [hf] at hchar
    obtain ⟨hmem, hp⟩ := findLast_some hf
    simp only [Bool.and_eq_true, Bool.not_eq_true', decide_eq_false_iff_not,
      decide_eq_true_eq] at hp
    refine ⟨coerceF it, hchar, Or.inl ⟨it, hmem, hp.2, rfl⟩, ?_⟩
    have hpair : (u, coerceF it) ∈ buildMapping e r := mem_of_dlookup hchar
    exact ⟨⟨some u, (coerceF it).title, (coerceF it).image⟩,
      List.mem_map_of_mem _ hpair, rfl, rfl, rfl⟩
  | none =>
    rw [hf, findLast_existing_of_nodup he hu] at hchar
    refine ⟨coerceM m, hchar, Or.inr rfl, ?_⟩
    have hpair : (u, coerceM m) ∈ buildMapping e r := mem_of_dlookup hchar
    exact ⟨⟨some u, (coerceM m).title, (coerceM m).image⟩,
      List.mem_map_of_mem _ hpair, rfl, rfl, rfl⟩

theorem c8_witness :
    ∃ m2, dlookup ("k") (buildMapping [(("k"), (⟨some ("t"), none⟩ : Meta))] []) =
        some m2 ∧
      ((∃ it, it ∈ ([] : List FetchItem) ∧ it.url = ("k") ∧ m2 = coerceF it) ∨
        m2 = coerceM (⟨some ("t"), none⟩ : Meta)) ∧
      ∃ it2, it2 ∈ payloadItems (buildMapping [(("k"), (⟨some ("t"), none⟩ : Meta))] []) ∧
        it2.url = some ("k") ∧ it2.title = m2.title ∧ it2.image = m2.image :=
  c8_no_key_deleted [(("k"), (⟨some ("t"), none⟩ : Meta))] [] ("k")
    (⟨some ("t"), none⟩ : Meta) (by decide) (by decide)

/-! ## Claim C9: exit behaviour -/

def isErr {ε α : Type} : Except ε α → Bool
  | Except.error _ => true
  | Except.ok _ => false

/-- C9: the pipeline terminates with the failure exit, writing no
payload, exactly when URL discovery yields nothing; in auto mode the
discovery is empty exactly when both sources are empty; and a raised
fetch never escalates — it yields the empty-metadata result for that URL
alone, the run still completing normally. -/
theorem c9_exit_behavior :
    (∀ (mode : SourceMode) (w d : List String) (ow : Bool) (lim : Nat)
        (prior : List (String × Meta)) (oracle : String → Option String),
        isErr (runPipeline mode w d ow lim prior oracle) = true ↔
          discoverUrls mode w d = []) ∧
    (∀ w d, discoverUrls SourceMode.auto w d = [] ↔ (w = [] ∧ d = [])) ∧
    (∀ (oracle : String → Option String) (url : String), oracle url = none →
        fetch_og_for_url oracle url = ⟨url, none, none⟩) := by
  refine ⟨?_, ?_, ?_⟩
  · intro mode w d ow lim prior oracle
    unfold runPipeline
    by_cases h : discoverUrls mode w d = []
    · rw [if_pos h]
      simp [isErr, h]
    · rw [if_neg h]
      simp [isErr, h]
  · intro w d
    unfold discoverUrls
    by_cases hw : w = []
    · simp [hw]
    · simp [hw]
  · intro oracle url h
    unfold fetch_og_for_url
    rw [h]

theorem c9_witness :
    isErr (runPipeline SourceMode.auto [] [] false 0 [] (fun _ => none)) = true ∧
      fetch_og_for_url (fun _ => none) ("u") = ⟨("u"), none, none⟩ :=
  ⟨((c9_exit_behavior).1 SourceMode.auto [] [] false 0 [] (fun _ => none)).mpr rfl,
   (c9_exit_behavior).2.2 (fun _ => none) ("u") rfl⟩

/-! ## Claim C10: output fields are null or non-empty -/

/-- C10: every item of the written payload has title and image each None
or a non-empty string; loading an items-shaped store coerces falsy
fields to None; and a stored entry whose fields are both empty strings
is treated as unfetched by the resume-mode queueing. -/
theorem c10_output_fields_null_or_nonempty :
    (∀ (e : List (String × Meta)) (r : List FetchItem) (it : StoreItem),
        it ∈ payloadItems (buildMapping e r) →
        (it.title = none ∨ ∃ s, it.title = some s ∧ s ≠ "") ∧
        (it.image = none ∨ ∃ s, it.image = some s ∧ s ≠ "")) ∧
    (∀ (items : List StoreItem) (u : String) (m : Meta),
        (u, m) ∈ loadItemsShape items → cleanMeta m) ∧
    (∀ (e : List (String × Meta)) (targets : List String) (u : String),
        u ∈ targets → dlookup u e = some (⟨some "", some ""⟩ : Meta) →
        u ∈ toFetch false e targets) := by
  refine ⟨?_, ?_, ?_⟩
  · intro e r it hit
    obtain ⟨⟨u, m⟩, hmem, hit2⟩ := List.mem_map.mp hit
    have hclean := cleanMeta_buildMapping hmem
    rw [← hit2]
    exact hclean
  · intro items u m hmem
    unfold loadItemsShape at hmem
    rcases mem_foldl_load hmem with h2 | h2
    · obtain ⟨it, _, hv⟩ := h2
      have hv2 : m = (⟨pyOrNone it.title, pyOrNone it.image⟩ : Meta) := hv
      rw [hv2]
      exact cleanMeta_coerce _ _
    · simp at h2
  · intro e targets u hu hdl
    unfold toFetch
    rw [List.mem_filter]
    refine ⟨hu, ?_⟩
    simp [hdl, truthyO]

theorem c10_witness :
    (((none : Option String) = none ∨ ∃ s, (none : Option String) = some s ∧ s ≠ "") ∧
      ((none : Option String) = none ∨ ∃ s, (none : Option String) = some s ∧ s ≠ "")) ∧
    cleanMeta (⟨none, none⟩ : Meta) ∧
    ("c") ∈ toFetch false [(("c"), (⟨some (""), some ("")⟩ : Meta))] [("c")] :=
  ⟨(c10_output_fields_null_or_nonempty).1 [] [(⟨("a"), some (""), none⟩ : FetchItem)]
      (⟨some ("a"), none, none⟩ : StoreItem) (by decide),
   (c10_output_fields_null_or_nonempty).2.1 [(⟨some ("b"), some (""), none⟩ : StoreItem)]
      (normalize_url ("b")) (⟨none, none⟩ : Meta) (by decide),
   (c10_output_fields_null_or_nonempty).2.2 [(("c"), (⟨some (""), some ("")⟩ : Meta))]
      [("c")] ("c") (by decide) (by decide)⟩

/-! ## Claim C4, counterexample part -/

/-- C4 counterexample: normalization is not idempotent on a path ending
in two slashes — each application strips exactly one trailing slash. -/
theorem c4_counterexample :
    normalize_url (normalize_url ("https://x.com/a//")) ≠
      normalize_url ("https://x.com/a//") := by decide

/-! ## Character-class lemmas for the normalization round trip -/

theorem isValidChar_small {n : Nat} (h : n < 55296) : n.isValidChar := Or.inl h

theorem toNat_ofNat_small {n : Nat} (h : n < 55296) : (Char.ofNat n).toNat = n := by
  unfold Char.ofNat
  rw [dif_pos (isValidChar_small h)]
  rfl

theorem isUpperCh_iff {c : Char} : isUpperCh c = true ↔ 65 ≤ c.toNat ∧ c.toNat ≤ 90 := by
  simp [isUpperCh]

theorem isAsciiAlphaCh_iff {c : Char} :
    isAsciiAlphaCh c = true ↔ (65 ≤ c.toNat ∧ c.toNat ≤ 90) ∨
      (97 ≤ c.toNat ∧ c.toNat ≤ 122) := by
  simp [isAsciiAlphaCh]

theorem isSchemeChar_iff {c : Char} :
    isSchemeChar c = true ↔ (65 ≤ c.toNat ∧ c.toNat ≤ 90) ∨
      (97 ≤ c.toNat ∧ c.toNat ≤ 122) ∨ (48 ≤ c.toNat ∧ c.toNat ≤ 57) ∨
      c.toNat = 43 ∨ c.toNat = 45 ∨ c.toNat = 46 := by
  simp [isSchemeChar, isAsciiAlphaCh, isAsciiDigitCh]
  tauto

theorem isC0OrSpace_iff {c : Char} : isC0OrSpace c = true ↔ c.toNat ≤ 32 := by
  simp [isC0OrSpace]

theorem isTabCrLf_iff {c : Char} :
    isTabCrLf c = true ↔ c.toNat = 9 ∨ c.toNat = 13 ∨ c.toNat = 10 := by
  simp [isTabCrLf]
  tauto

theorem lowerCh_toNat (c : Char) :
    (lowerCh c).toNat = if isUpperCh c = true then c.toNat + 32 else c.toNat := by
  unfold lowerCh
  by_cases h : isUpperCh c = true
  · rw [if_pos h, if_pos h]
    have hb : c.toNat + 32 < 55296 := by
      have := isUpperCh_iff.mp h
      omega
    exact toNat_ofNat_small hb
  · rw [if_neg h, if_neg h]

theorem lowerCh_alpha {c : Char} (h : isAsciiAlphaCh c = true) :
    isAsciiAlphaCh (lowerCh c) = true := by
  rw [isAsciiAlphaCh_iff] at h ⊢
  rw [lowerCh_toNat]
  by_cases hu : isUpperCh c = true
  · rw [if_pos hu]
    have := isUpperCh_iff.mp hu
    omega
  · rw [if_neg hu]
    exact h

theorem lowerCh_schemeChar {c : Char} (h : isSchemeChar c = true) :
    isSchemeChar (lowerCh c) = true := by
  rw [isSchemeChar_iff] at h ⊢
  rw [lowerCh_toNat]
  by_cases hu : isUpperCh c = true
  · rw [if_pos hu]
    have := isUpperCh_iff.mp hu
    omega
  · rw [if_neg hu]
    exact h

theorem lowerCh_notUpper (c : Char) : isUpperCh (lowerCh c) = false := by
  by_cases hu : isUpperCh c = true
  · have h2 := lowerCh_toNat c
    rw [if_pos hu] at h2
    have h3 := isUpperCh_iff.mp hu
    rw [← Bool.not_eq_true]
    rw [isUpperCh_iff, h2]
    omega
  · have h2 := lowerCh_toNat c
    rw [if_neg hu] at h2
    rw [← Bool.not_eq_true, isUpperCh_iff, h2]
    rw [isUpperCh_iff] at hu
    exact hu

theorem lowerCh_idem (c : Char) : lowerCh (lowerCh c) = lowerCh c := by
  show (if isUpperCh (lowerCh c) then Char.ofNat ((lowerCh c).toNat + 32) else lowerCh c) =
    lowerCh c
  rw [lowerCh_notUpper]
  simp

theorem lowerL_idem (l : List Char) : lowerL (lowerL l) = lowerL l := by
  induction l with
  | nil => rfl
  | cons c t ih =>
    simp only [lowerL, List.map_cons] at ih ⊢
    rw [lowerCh_idem, ih]

theorem lowerL_all_schemeChar {l : List Char} (h : l.all isSchemeChar = true) :
    (lowerL l).all isSchemeChar = true := by
  rw [List.all_eq_true] at h ⊢
  intro c hc
  obtain ⟨c0, hc0, rfl⟩ := List.mem_map.mp hc
  exact lowerCh_schemeChar (h c0 hc0)

theorem schemeChar_ne_colon {c : Char} (h : isSchemeChar c = true) : c ≠ ':' := by
  intro hc
  subst hc
  exact absurd h (by decide)

theorem schemeChar_not_c0 {c : Char} (h : isSchemeChar c = true) : isC0OrSpace c = false := by
  rw [isSchemeChar_iff] at h
  rw [← Bool.not_eq_true, isC0OrSpace_iff]
  omega

theorem schemeChar_not_tcl {c : Char} (h : isSchemeChar c = true) : isTabCrLf c = false := by
  rw [isSchemeChar_iff] at h
  rw [← Bool.not_eq_true, isTabCrLf_iff]
  omega

theorem alpha_schemeChar {c : Char} (h : isAsciiAlphaCh c = true) : isSchemeChar c = true := by
  rw [isAsciiAlphaCh_iff] at h
  rw [isSchemeChar_iff]
  tauto

/-! ## List-scanning lemmas for the normalization round trip -/

theorem takeWhile_append_all {γ : Type} {p : γ → Bool} {xs : List γ} (ys : List γ)
    (h : ∀ x ∈ xs, p x = true) :
    (xs ++ ys).takeWhile p = xs ++ ys.takeWhile p := by
  induction xs with
  | nil => simp
  | cons a t ih =>
    have ha := h a (List.mem_cons_self _ _)
    simp only [List.cons_append, List.takeWhile_cons_of_pos ha]
    rw [ih (fun x hx => h x (List.mem_cons_of_mem _ hx))]

theorem dropWhile_append_all {γ : Type} {p : γ → Bool} {xs : List γ} (ys : List γ)
    (h : ∀ x ∈ xs, p x = true) :
    (xs ++ ys).dropWhile p = ys.dropWhile p := by
  induction xs with
  | nil => simp
  | cons a t ih =>
    have ha := h a (List.mem_cons_self _ _)
    simp only [List.cons_append, List.dropWhile_cons_of_pos ha]
    exact ih (fun x hx => h x (List.mem_cons_of_mem _ hx))

theorem mem_takeWhile {γ : Type} {p : γ → Bool} {l : List γ} {a : γ}
    (h : a ∈ l.takeWhile p) : p a = true ∧ a ∈ l := by
  induction l with
  | nil => simp at h
  | cons b t ih =>
    by_cases hb : p b = true
    · rw [List.takeWhile_cons_of_pos hb] at h
      rcases List.mem_cons.mp h with rfl | h2
      · exact ⟨hb, List.mem_cons_self _ _⟩
      · obtain ⟨h3, h4⟩ := ih h2
        exact ⟨h3, List.mem_cons_of_mem _ h4⟩
    · rw [List.takeWhile_cons_of_neg (by simp [hb])] at h
      simp at h

theorem mem_dropWhile {γ : Type} {p : γ → Bool} {l : List γ} {a : γ}
    (h : a ∈ l.dropWhile p) : a ∈ l := by
  induction l with
  | nil => simp at h
  | cons b t ih =>
    by_cases hb : p b = true
    · rw [List.dropWhile_cons_of_pos hb] at h
      exact List.mem_cons_of_mem _ (ih h)
    · rw [List.dropWhile_cons_of_neg (by simp [hb])] at h
      exact h

theorem contains_false_forall {l : List Char} {d : Char} (h : l.contains d = false) :
    ∀ x ∈ l, x ≠ d := by
  intro x hx hxd
  subst hxd
  have hc : l.contains x = true := by simp [hx]
  rw [h] at hc
  exact absurd hc (by simp)

theorem forall_contains_false {l : List Char} {d : Char} (h : ∀ x ∈ l, x ≠ d) :
    l.contains d = false := by
  by_cases hc : l.contains d = true
  · have : d ∈ l := by simpa using hc
    exact absurd rfl (h d this)
  · revert hc
    cases l.contains d <;> simp

theorem head?_take {γ : Type} (n : Nat) (l : List γ) :
    (l.take n).head? = if n = 0 then none else l.head? := by
  cases n with
  | zero => simp
  | succ m => cases l <;> simp

theorem takeWhile_length_lt {γ : Type} {p : γ → Bool} {l : List γ}
    (h : ∃ x ∈ l, p x = false) : (l.takeWhile p).length < l.length := by
  induction l with
  | nil => simp at h
  | cons a t ih =>
    by_cases ha : p a = true
    · rw [List.takeWhile_cons_of_pos ha]
      obtain ⟨x, hx, hpx⟩ := h
      rcases List.mem_cons.mp hx with rfl | hx2
      · rw [ha] at hpx; exact absurd hpx (by simp)
      · have := ih ⟨x, hx2, hpx⟩
        simpa using this
    · rw [List.takeWhile_cons_of_neg (by simp [ha])]
      simp

theorem takeWhile_ne_nil_head {γ : Type} {p : γ → Bool} {l : List γ}
    (h : l.takeWhile p ≠ []) : (l.takeWhile p).head? = l.head? := by
  cases l with
  | nil => rfl
  | cons a t =>
    by_cases ha : p a = true
    · rw [List.takeWhile_cons_of_pos ha]
      rfl
    · rw [List.takeWhile_cons_of_neg (by simp [ha])] at h
      exact absurd rfl h

theorem head?_append_left {γ : Type} {l1 : List γ} (l2 : List γ) (h : l1 ≠ []) :
    (l1 ++ l2).head? = l1.head? := by
  cases l1 with
  | nil => exact absurd rfl h
  | cons a t => rfl

theorem splitOnce_not_contains {d : Char} {l : List Char} (h : l.contains d = false) :
    pySplitOnce d l = (l, []) := by
  unfold pySplitOnce
  rw [if_neg (by rw [h]; simp)]

theorem splitOnce_fst_spec {d : Char} {l : List Char} :
    ∀ a ∈ (pySplitOnce d l).1, a ≠ d ∧ a ∈ l := by
  intro a ha
  unfold pySplitOnce at ha
  by_cases hc : l.contains d = true
  · rw [if_pos hc] at ha
    obtain ⟨h1, h2⟩ := mem_takeWhile ha
    exact ⟨of_decide_eq_true h1, h2⟩
  · have hc2 : l.contains d = false := by revert hc; cases l.contains d <;> simp
    rw [if_neg (by rw [hc2]; simp)] at ha
    exact ⟨contains_false_forall hc2 a ha, ha⟩

theorem splitOnce_fst_head {d : Char} {l : List Char}
    (h : (pySplitOnce d l).1 ≠ []) : (pySplitOnce d l).1.head? = l.head? := by
  unfold pySplitOnce at h ⊢
  by_cases hc : l.contains d = true
  · rw [if_pos hc] at h ⊢
    exact takeWhile_ne_nil_head h
  · rw [if_neg hc] at h ⊢

theorem splitParams_fst_mem {l : List Char} :
    ∀ a ∈ (pySplitParams l).1, a ∈ l := by
  intro a ha
  unfold pySplitParams at ha
  by_cases hsl : l.contains '/' = true
  · rw [if_pos hsl] at ha
    by_cases hsemi : ((l.reverse.takeWhile (fun c => c ≠ '/')).reverse).contains ';' = true
    · rw [if_pos hsemi] at ha
      rcases List.mem_append.mp ha with h2 | h2
      · exact List.take_subset _ _ h2
      · have h3 := (mem_takeWhile h2).2
        have h4 : a ∈ l.reverse.takeWhile (fun c => c ≠ '/') := by
          simpa using h3
        exact (by simpa using (mem_takeWhile h4).2 : a ∈ l)
    · rw [if_neg hsemi] at ha
      exact ha
  · rw [if_neg hsl] at ha
    exact (mem_takeWhile ha).2

theorem splitParams_fst_head {l : List Char} (h : l.head? = some '/') :
    (pySplitParams l).1.head? = some '/' := by
  have hmem : '/' ∈ l := head?_some_mem h
  have hcont : l.contains '/' = true := by simp [hmem]
  unfold pySplitParams
  rw [if_pos hcont]
  by_cases hsemi : ((l.reverse.takeWhile (fun c => c ≠ '/')).reverse).contains ';' = true
  · rw [if_pos hsemi]
    have hlen : (l.reverse.takeWhile (fun c => c ≠ '/')).length < l.length := by
      have hx : ∃ x ∈ l.reverse, (fun c => decide (c ≠ '/')) x = false := by
        refine ⟨'/', by simp [hmem], by simp⟩
      have h5 := takeWhile_length_lt hx
      rw [List.length_reverse] at h5
      exact h5
    have hlen2 : ((l.reverse.takeWhile (fun c => c ≠ '/')).reverse).length < l.length := by
      rw [List.length_reverse]
      exact hlen
    have hp : l.length - ((l.reverse.takeWhile (fun c => c ≠ '/')).reverse).length ≠ 0 := by
      omega
    have hpne : l.take (l.length -
        ((l.reverse.takeWhile (fun c => c ≠ '/')).reverse).length) ≠ [] := by
      intro hh
      have h6 := congrArg List.length hh
      rw [List.length_take] at h6
      simp only [List.length_nil] at h6
      omega
    rw [head?_append_left _ hpne, head?_take, if_neg hp, h]
  · rw [if_neg hsemi]
    exact h

theorem splitSchemeL_of_scheme (sch rest : List Char)
    (h2 : ∀ c ∈ sch, isSchemeChar c = true)
    (h3 : ∃ c cs, sch = c :: cs ∧ isAsciiAlphaCh c = true) :
    splitSchemeL (sch ++ ':' :: rest) = (lowerL sch, rest) := by
  obtain ⟨c, cs, rfl, hca⟩ := h3
  have hnc : ∀ x ∈ c :: cs, (fun y => decide (y ≠ ':')) x = true := by
    intro x hx
    simpa using schemeChar_ne_colon (h2 x hx)
  have htw : ((c :: cs) ++ ':' :: rest).takeWhile (fun x => x ≠ ':') = c :: cs := by
    rw [takeWhile_append_all (':' :: rest) hnc]
    rw [List.takeWhile_cons_of_neg (by simp)]
    simp
  have hdw : ((c :: cs) ++ ':' :: rest).dropWhile (fun x => x ≠ ':') = ':' :: rest := by
    rw [dropWhile_append_all (':' :: rest) hnc]
    rw [List.dropWhile_cons_of_neg (by simp)]
  have hall : cs.all isSchemeChar = true := by
    rw [List.all_eq_true]
    intro x hx
    exact h2 x (List.mem_cons_of_mem _ hx)
  unfold splitSchemeL
  rw [htw, hdw]
  simp [hca, hall]

theorem splitSchemeL_fst_spec (l : List Char) :
    (splitSchemeL l).1 = [] ∨
      ((splitSchemeL l).1.all isSchemeChar = true ∧
        (∃ c cs, (splitSchemeL l).1 = c :: cs ∧ isAsciiAlphaCh c = true) ∧
        lowerL (splitSchemeL l).1 = (splitSchemeL l).1) := by
  unfold splitSchemeL
  split
  · left; rfl
  · split
    · left; rfl
    · split
      · next hpre hcond =>
        cases htw : l.takeWhile (fun c => c ≠ ':') with
        | nil => rw [htw] at hpre; simp at hpre
        | cons c cs =>
          rw [htw] at hcond
          simp only [List.headD_cons, List.drop_succ_cons, List.drop_zero] at hcond
          rcases Bool.and_eq_true _ _ ▸ hcond with ⟨hca, hall⟩
          right
          refine ⟨?_, ⟨lowerCh c, lowerL cs, rfl, lowerCh_alpha hca⟩, lowerL_idem _⟩
          have hall2 : (c :: cs).all isSchemeChar = true := by
            rw [List.all_eq_true] at hall ⊢
            intro y hy
            rcases List.mem_cons.mp hy with rfl | hy2
            · exact alpha_schemeChar hca
            · exact hall y hy2
          exact lowerL_all_schemeChar hall2
      · left; rfl

theorem splitSchemeL_snd_mem {l : List Char} : ∀ a ∈ (splitSchemeL l).2, a ∈ l := by
  intro a ha
  unfold splitSchemeL at ha
  split at ha
  · exact ha
  · split at ha
    · exact ha
    · split at ha
      · have h2 : a ∈ l.dropWhile (fun c => c ≠ ':') := by
          exact List.mem_of_mem_drop ha
        exact mem_dropWhile h2
      · exact ha

/-- Well-behaved netloc characters: not a delimiter, ASCII, no square
brackets, none of the removed bytes. -/
def goodNetlocChar (c : Char) : Prop :=
  isNetlocDelim c = false ∧ isAsciiCh c = true ∧ c ≠ '[' ∧ c ≠ ']' ∧ isTabCrLf c = false

/-- Well-behaved path characters: no query or fragment delimiter, none
of the removed bytes. -/
def goodPathChar (c : Char) : Prop := c ≠ '?' ∧ c ≠ '#' ∧ isTabCrLf c = false

theorem alpha_not_c0 {c : Char} (h : isAsciiAlphaCh c = true) : isC0OrSpace c = false := by
  rw [isAsciiAlphaCh_iff] at h
  rw [← Bool.not_eq_true, isC0OrSpace_iff]
  omega

theorem take_one_slash {q : List Char} (h : q.take 1 = ['/']) : ∃ t, q = '/' :: t := by
  cases q with
  | nil => simp at h
  | cons a t =>
    simp [List.take] at h
    exact ⟨t, by rw [h]⟩

theorem urlsplit_unsplit_netloc (sch nl q : List Char)
    (hs : ∀ c ∈ sch, isSchemeChar c = true)
    (hsh : ∃ c cs, sch = c :: cs ∧ isAsciiAlphaCh c = true)
    (hnl : ∀ c ∈ nl, goodNetlocChar c)
    (hq : ∀ c ∈ q, goodPathChar c)
    (hqh : q.take 1 = ['/']) :
    pyUrlsplitL (sch ++ ':' :: '/' :: '/' :: (nl ++ q)) =
      some ⟨lowerL sch, nl, q, [], []⟩ := by
  obtain ⟨c0, cs0, rfl, hca⟩ := hsh
  obtain ⟨q1, rfl⟩ := take_one_slash hqh
  set o := (c0 :: cs0) ++ ':' :: '/' :: '/' :: (nl ++ ('/' :: q1)) with ho
  have hdrop : o.dropWhile isC0OrSpace = o := by
    rw [ho, List.cons_append, List.dropWhile_cons_of_neg (by simp [alpha_not_c0 hca])]
  have hfilt : o.filter (fun c => !isTabCrLf c) = o := by
    rw [List.filter_eq_self]
    intro x hx
    rw [ho] at hx
    rcases List.mem_append.mp hx with hx1 | hx2
    · simp [schemeChar_not_tcl (hs x hx1)]
    · rcases List.mem_cons.mp hx2 with rfl | hx3
      · decide
      · rcases List.mem_cons.mp hx3 with rfl | hx4
        · decide
        · rcases List.mem_cons.mp hx4 with rfl | hx5
          · decide
          · rcases List.mem_append.mp hx5 with hx6 | hx7
            · simp [(hnl x hx6).2.2.2.2]
            · rcases List.mem_cons.mp hx7 with rfl | hx8
              · decide
              · simp [(hq x (List.mem_cons_of_mem _ hx8)).2.2]
  have hscheme : splitSchemeL o = (lowerL (c0 :: cs0), '/' :: '/' :: (nl ++ ('/' :: q1))) :=
    splitSchemeL_of_scheme _ _ hs ⟨c0, cs0, rfl, hca⟩
  have hnldelim : ∀ x ∈ nl, (fun y => !isNetlocDelim y) x = true := by
    intro x hx
    simp [(hnl x hx).1]
  have htwn : (nl ++ ('/' :: q1)).takeWhile (fun y => !isNetlocDelim y) = nl := by
    rw [takeWhile_append_all _ hnldelim, List.takeWhile_cons_of_neg (by decide)]
    simp
  have hdwn : (nl ++ ('/' :: q1)).dropWhile (fun y => !isNetlocDelim y) = '/' :: q1 := by
    rw [dropWhile_append_all _ hnldelim, List.dropWhile_cons_of_neg (by decide)]
  have hbr1 : nl.contains '[' = false :=
    forall_contains_false (fun x hx => (hnl x hx).2.2.1)
  have hbr2 : nl.contains ']' = false :=
    forall_contains_false (fun x hx => (hnl x hx).2.2.2.1)
  have hascii : nl.all isAsciiCh = true := by
    rw [List.all_eq_true]
    exact fun x hx => (hnl x hx).2.1
  have hnohash : ('/' :: q1).contains '#' = false :=
    forall_contains_false (fun x hx => (hq x hx).2.1)
  have hnoq : ('/' :: q1).contains '?' = false :=
    forall_contains_false (fun x hx => (hq x hx).1)
  simp only [pyUrlsplitL]
  rw [hdrop, hfilt, hscheme]
  rw [if_pos (by rfl)]
  simp only [List.drop_succ_cons, List.drop_zero]
  rw [htwn, hdwn, if_neg (by rw [hbr1, hbr2]; simp)]
  rw [if_neg (by rw [hascii]; simp)]
  rw [splitOnce_not_contains hnohash, splitOnce_not_contains hnoq]

theorem urlsplit_unsplit_plain (sch q : List Char)
    (hs : ∀ c ∈ sch, isSchemeChar c = true)
    (hsh : ∃ c cs, sch = c :: cs ∧ isAsciiAlphaCh c = true)
    (hq : ∀ c ∈ q, goodPathChar c)
    (hq2 : q.take 2 ≠ ['/', '/']) :
    pyUrlsplitL (sch ++ ':' :: q) = some ⟨lowerL sch, [], q, [], []⟩ := by
  obtain ⟨c0, cs0, rfl, hca⟩ := hsh
  set o := (c0 :: cs0) ++ ':' :: q with ho
  have hdrop : o.dropWhile isC0OrSpace = o := by
    rw [ho, List.cons_append, List.dropWhile_cons_of_neg (by simp [alpha_not_c0 hca])]
  have hfilt : o.filter (fun c => !isTabCrLf c) = o := by
    rw [List.filter_eq_self]
    intro x hx
    rw [ho] at hx
    rcases List.mem_append.mp hx with hx1 | hx2
    · simp [schemeChar_not_tcl (hs x hx1)]
    · rcases List.mem_cons.mp hx2 with rfl | hx3
      · decide
      · simp [(hq x hx3).2.2]
  have hscheme : splitSchemeL o = (lowerL (c0 :: cs0), q) :=
    splitSchemeL_of_scheme _ _ hs ⟨c0, cs0, rfl, hca⟩
  have hnohash : q.contains '#' = false :=
    forall_contains_false (fun x hx => (hq x hx).2.1)
  have hnoq : q.contains '?' = false :=
    forall_contains_false (fun x hx => (hq x hx).1)
  simp only [pyUrlsplitL]
  rw [hdrop, hfilt, hscheme]
  rw [if_neg (by exact hq2)]
  rw [splitOnce_not_contains hnohash, splitOnce_not_contains hnoq]

theorem char_eq_of_toNat {c d : Char} (h : c.toNat = d.toNat) : c = d := by
  have h2 := Char.ofNat_toNat c
  rw [h] at h2
  rw [← h2, Char.ofNat_toNat]

theorem pyUrlparseL_of_split {l : List Char} {r : PySplitResult}
    (h : pyUrlsplitL l = some r) (hp : paramNoop r.scheme r.path = true) :
    pyUrlparseL l = some ⟨r.scheme, r.netloc, r.path, [], r.query, r.frag⟩ := by
  unfold pyUrlparseL
  simp only [h]
  by_cases hg : (usesParamsSchemes.contains r.scheme && r.path.contains ';') = true
  · rw [if_pos hg]
    unfold paramNoop at hp
    rw [if_pos hg] at hp
    have hsp := of_decide_eq_true hp
    rw [hsp]
  · rw [if_neg hg]

theorem pyUrlsplitL_inv {l : List Char} {r : PySplitResult} (h : pyUrlsplitL l = some r) :
    (r.scheme = [] ∨ (r.scheme.all isSchemeChar = true ∧
      (∃ c cs, r.scheme = c :: cs ∧ isAsciiAlphaCh c = true) ∧
      lowerL r.scheme = r.scheme)) ∧
    (∀ c ∈ r.netloc, goodNetlocChar c) ∧
    (∀ c ∈ r.path, goodPathChar c) ∧
    (r.netloc ≠ [] → r.path = [] ∨ r.path.head? = some '/') := by
  simp only [pyUrlsplitL] at h
  set u1 := (l.dropWhile isC0OrSpace).filter (fun c => !isTabCrLf c) with hu1
  have hmemu1 : ∀ c ∈ u1, isTabCrLf c = false := by
    intro c hc
    have h2 := List.of_mem_filter hc
    simpa using h2
  have hsub2 : ∀ c ∈ (splitSchemeL u1).2, isTabCrLf c = false := fun c hc =>
    hmemu1 c (splitSchemeL_snd_mem c hc)
  have hschemefact : (splitSchemeL u1).1 = [] ∨ ((splitSchemeL u1).1.all isSchemeChar = true ∧
      (∃ c cs, (splitSchemeL u1).1 = c :: cs ∧ isAsciiAlphaCh c = true) ∧
      lowerL (splitSchemeL u1).1 = (splitSchemeL u1).1) := splitSchemeL_fst_spec u1
  split at h
  · split at h
    · exact absurd h (by simp)
    · split at h
      · exact absurd h (by simp)
      · next hbr hascii =>
        injection h with h2
        subst h2
        refine ⟨hschemefact, ?_, ?_, ?_⟩
        · intro c hc
          obtain ⟨hc1, hc2⟩ := mem_takeWhile hc
          have hdelim : isNetlocDelim c = false := by simpa using hc1
          have htcl : isTabCrLf c = false :=
            hsub2 c (List.drop_subset _ _ hc2)
          have hnbr : c ≠ '[' ∧ c ≠ ']' := by
            have hbr2 : ¬ ('[' ∈ ((splitSchemeL u1).2.drop 2).takeWhile
                (fun c => !isNetlocDelim c) ∨ ']' ∈ ((splitSchemeL u1).2.drop 2).takeWhile
                (fun c => !isNetlocDelim c)) := by
              intro hx
              apply hbr
              rcases hx with hx | hx
              · simp [hx]
              · simp [hx]
            constructor
            · intro hx
              subst hx
              exact hbr2 (Or.inl hc)
            · intro hx
              subst hx
              exact hbr2 (Or.inr hc)
          have hascii2 : isAsciiCh c = true := by
            have h3 : (((splitSchemeL u1).2.drop 2).takeWhile
                (fun c => !isNetlocDelim c)).all isAsciiCh = true := by
              revert hascii
              cases (((splitSchemeL u1).2.drop 2).takeWhile
                (fun c => !isNetlocDelim c)).all isAsciiCh <;> simp
            exact (List.all_eq_true.mp h3) c hc
          exact ⟨hdelim, hascii2, hnbr.1, hnbr.2, htcl⟩
        · intro c hc
          obtain ⟨hq1, hq2⟩ := splitOnce_fst_spec c hc
          obtain ⟨hh1, hh2⟩ := splitOnce_fst_spec c hq2
          have htcl : isTabCrLf c = false := by
            have h3 := mem_dropWhile hh2
            exact hsub2 c (List.drop_subset _ _ h3)
          exact ⟨hq1, hh1, htcl⟩
        · intro hne
          by_cases hpe : (pySplitOnce '?' (pySplitOnce '#'
              (((splitSchemeL u1).2.drop 2).dropWhile (fun c => !isNetlocDelim c))).1).1 = []
          · exact Or.inl hpe
          · right
            have hhd1 := splitOnce_fst_head hpe
            have hin : (pySplitOnce '#' (((splitSchemeL u1).2.drop 2).dropWhile
                (fun c => !isNetlocDelim c))).1 ≠ [] := by
              intro hx
              apply hpe
              rw [hx]
              rfl
            have hhd2 := splitOnce_fst_head hin
            have hr2e : (((splitSchemeL u1).2.drop 2).dropWhile
                (fun c => !isNetlocDelim c)) ≠ [] := by
              intro hx
              apply hin
              rw [hx]
              rfl
            cases hr2h : (((splitSchemeL u1).2.drop 2).dropWhile
                (fun c => !isNetlocDelim c)).head? with
            | none =>
              rw [List.head?_eq_none_iff] at hr2h
              exact absurd hr2h hr2e
            | some ch =>
              have hdelim := dropWhile_head_not hr2h
              have hch : isNetlocDelim ch = true := by
                revert hdelim
                cases isNetlocDelim ch <;> simp
              have hchmem : ch ∈ (pySplitOnce '?' (pySplitOnce '#'
                  (((splitSchemeL u1).2.drop 2).dropWhile
                    (fun c => !isNetlocDelim c))).1).1 := by
                apply head?_some_mem
                rw [hhd1, hhd2, hr2h]
              obtain ⟨hq1, hq2⟩ := splitOnce_fst_spec ch hchmem
              obtain ⟨hh1, _⟩ := splitOnce_fst_spec ch hq2
              have h47 : ch.toNat = 47 := by
                have hn63 : ch.toNat ≠ 63 := fun hx =>
                  hq1 (char_eq_of_toNat (by rw [hx]; rfl))
                have hn35 : ch.toNat ≠ 35 := fun hx =>
                  hh1 (char_eq_of_toNat (by rw [hx]; rfl))
                have hch2 : (ch.toNat = 47 ∨ ch.toNat = 63) ∨ ch.toNat = 35 := by
                  rw [isNetlocDelim] at hch
                  simpa using hch
                omega
              have : ch = '/' := char_eq_of_toNat (by rw [h47]; rfl)
              subst this
              rw [hhd1, hhd2, hr2h]
  · next htake =>
    injection h with h2
    subst h2
    refine ⟨hschemefact, by simp, ?_, by simp⟩
    intro c hc
    obtain ⟨hq1, hq2⟩ := splitOnce_fst_spec c hc
    obtain ⟨hh1, hh2⟩ := splitOnce_fst_spec c hq2
    exact ⟨hq1, hh1, hsub2 c hh2⟩

theorem unparse_no_params (s n p q f : List Char) :
    pyUrlunparseL s n p [] q f = pyUrlunsplitL s n p q f := by
  unfold pyUrlunparseL
  simp

theorem normalize_fixed_of_parse {o sch nl pth : List Char}
    (hp : pyUrlparseL o = some ⟨sch, nl, pth, [], [], []⟩)
    (hs : sch ≠ []) (hpne : pth ≠ [])
    (hstrip : stripOneSlash pth = pth)
    (huns : pyUrlunsplitL sch nl pth [] [] = o) :
    normalizeUrlL o = o := by
  unfold normalizeUrlL
  rw [hp]
  simp only [if_neg hs, if_neg hpne, hstrip]
  rw [unparse_no_params, huns]

theorem unsplit_netloc_ne (s n p : List Char) (hs : s ≠ []) (hn : n ≠ [])
    (hp : p.take 1 = ['/']) :
    pyUrlunsplitL s n p [] [] = s ++ ':' :: '/' :: '/' :: (n ++ p) := by
  unfold pyUrlunsplitL urlJoinFrag urlJoinQuery urlJoinScheme urlJoinNetloc
  rw [if_neg (by simp), if_neg (by simp), if_pos (by simp [hs]),
    if_pos (by simp [hn]), if_neg (by simp [hp])]

theorem unsplit_empty_uses_slash (s p : List Char) (hs : s ≠ [])
    (hcont : usesNetlocSchemes.contains s = true) (h2 : p.take 2 ≠ ['/', '/'])
    (hp : p.take 1 = ['/']) :
    pyUrlunsplitL s [] p [] [] = s ++ ':' :: '/' :: '/' :: p := by
  have hmem : s ∈ usesNetlocSchemes := by simpa using hcont
  unfold pyUrlunsplitL urlJoinFrag urlJoinQuery urlJoinScheme urlJoinNetloc
  rw [if_neg (by simp), if_neg (by simp), if_pos (by simp [hs]),
    if_pos (by simp [hs, hmem, h2]), if_neg (by simp [hp])]
  simp

theorem unsplit_empty_uses_noslash (s p : List Char) (hs : s ≠ [])
    (hcont : usesNetlocSchemes.contains s = true) (h2 : p.take 2 ≠ ['/', '/'])
    (hpe : p ≠ []) (hp : p.take 1 ≠ ['/']) :
    pyUrlunsplitL s [] p [] [] = s ++ ':' :: '/' :: '/' :: '/' :: p := by
  have hmem : s ∈ usesNetlocSchemes := by simpa using hcont
  unfold pyUrlunsplitL urlJoinFrag urlJoinQuery urlJoinScheme urlJoinNetloc
  rw [if_neg (by simp), if_neg (by simp), if_pos (by simp [hs]),
    if_pos (by simp [hs, hmem, h2]), if_pos (by simp [hpe, hp])]
  simp

theorem unsplit_plain (s p : List Char) (hs : s ≠ [])
    (hcont : usesNetlocSchemes.contains s = false) :
    pyUrlunsplitL s [] p [] [] = s ++ ':' :: p := by
  have hnm : s ∉ usesNetlocSchemes := by simpa using hcont
  unfold pyUrlunsplitL urlJoinFrag urlJoinQuery urlJoinScheme urlJoinNetloc
  rw [if_neg (by simp), if_neg (by simp), if_pos (by simp [hs]),
    if_neg (by simp; exact fun _ hm => absurd hm hnm)]

theorem stripOneSlash_ne_nil {p : List Char} (h : p ≠ []) : stripOneSlash p ≠ [] := by
  unfold stripOneSlash
  by_cases hc : p ≠ ['/'] ∧ p.getLast? = some '/'
  · rw [if_pos hc]
    intro hx
    have h6 := congrArg List.length hx
    rw [List.length_dropLast, List.length_nil] at h6
    cases p with
    | nil => exact h rfl
    | cons a t =>
      cases t with
      | nil =>
        have ha : a = '/' := by simpa using hc.2
        exact hc.1 (by rw [ha])
      | cons b t2 =>
        simp at h6
  · rw [if_neg hc]
    exact h

theorem stripOneSlash_subset {p : List Char} : ∀ c ∈ stripOneSlash p, c ∈ p := by
  intro c hc
  unfold stripOneSlash at hc
  by_cases hcond : p ≠ ['/'] ∧ p.getLast? = some '/'
  · rw [if_pos hcond] at hc
    exact List.dropLast_subset p hc
  · rw [if_neg hcond] at hc
    exact hc

theorem stripOneSlash_head {p : List Char} (h : p.head? = some '/') :
    (stripOneSlash p).head? = some '/' := by
  unfold stripOneSlash
  by_cases hc : p ≠ ['/'] ∧ p.getLast? = some '/'
  · rw [if_pos hc]
    cases p with
    | nil => simp at h
    | cons a t =>
      have ha : a = '/' := by simpa using h
      cases t with
      | nil => exact absurd (by rw [ha]) hc.1
      | cons b t2 =>
        show (a :: (b :: t2).dropLast).head? = some '/'
        simp [ha]
  · rw [if_neg hc]
    exact h

theorem head_slash_take {p : List Char} (h : p.head? = some '/') : p.take 1 = ['/'] := by
  cases p with
  | nil => simp at h
  | cons a t =>
    have ha : a = '/' := by simpa using h
    simp [ha]

/-- Inversion for the urlparse model: the same well-formedness facts as
for urlsplit, transferred through the parameter split. -/
theorem pyUrlparseL_inv {l : List Char} {r : PyParseResult} (h : pyUrlparseL l = some r) :
    (r.scheme = [] ∨ (r.scheme.all isSchemeChar = true ∧
      (∃ c cs, r.scheme = c :: cs ∧ isAsciiAlphaCh c = true) ∧
      lowerL r.scheme = r.scheme)) ∧
    (∀ c ∈ r.netloc, goodNetlocChar c) ∧
    (∀ c ∈ r.path, goodPathChar c) ∧
    (r.netloc ≠ [] → r.path = [] ∨ r.path.head? = some '/') := by
  unfold pyUrlparseL at h
  cases hsp : pyUrlsplitL l with
  | none =>
    rw [hsp] at h
    exact absurd h (by simp)
  | some r0 =>
    simp only [hsp] at h
    obtain ⟨hsch, hnl, hpth, hnp⟩ := pyUrlsplitL_inv hsp
    by_cases hg : (usesParamsSchemes.contains r0.scheme && r0.path.contains ';') = true
    · rw [if_pos hg] at h
      injection h with h2
      subst h2
      refine ⟨hsch, hnl, ?_, ?_⟩
      · intro c hc
        exact hpth c (splitParams_fst_mem c hc)
      · intro hne
        rcases hnp hne with hpe | hph
        · rw [hpe] at hg
          simp at hg
        · exact Or.inr (splitParams_fst_head hph)
    · rw [if_neg hg] at h
      injection h with h2
      subst h2
      exact ⟨hsch, hnl, hpth, hnp⟩

/-- normalize_url's list-level body is idempotent on every input
satisfying the side condition normIdemOKL. -/
theorem normalizeUrlL_idem {l : List Char} (h : normIdemOKL l = true) :
    normalizeUrlL (normalizeUrlL l) = normalizeUrlL l := by
  cases hpr : pyUrlparseL l with
  | none =>
    rw [normIdemOKL, hpr] at h
    exact absurd h (by simp)
  | some r =>
    obtain ⟨hschf, hnlg, hpg, hnp⟩ := pyUrlparseL_inv hpr
    simp only [normIdemOKL, hpr] at h
    set s2 := (if r.scheme = [] then "https".toList else r.scheme) with hs2def
    set p0 := (if r.path = [] then "/".toList else r.path) with hp0def
    set p1 := stripOneSlash p0 with hp1def
    have hs2ne : s2 ≠ [] := by
      rw [hs2def]
      by_cases he : r.scheme = []
      · rw [if_pos he]
        decide
      · rw [if_neg he]
        exact he
    have hs2all : ∀ c ∈ s2, isSchemeChar c = true := by
      rw [hs2def]
      by_cases he : r.scheme = []
      · rw [if_pos he]
        decide
      · rw [if_neg he]
        rcases hschf with he2 | ⟨hall, _, _⟩
        · exact absurd he2 he
        · exact fun c hc => List.all_eq_true.mp hall c hc
    have hs2head : ∃ c cs, s2 = c :: cs ∧ isAsciiAlphaCh c = true := by
      rw [hs2def]
      by_cases he : r.scheme = []
      · rw [if_pos he]
        exact ⟨'h', ['t', 't', 'p', 's'], by decide, by decide⟩
      · rw [if_neg he]
        rcases hschf with he2 | ⟨_, hh, _⟩
        · exact absurd he2 he
        · exact hh
    have hs2low : lowerL s2 = s2 := by
      rw [hs2def]
      by_cases he : r.scheme = []
      · rw [if_pos he]
        decide
      · rw [if_neg he]
        rcases hschf with he2 | ⟨_, _, hl⟩
        · exact absurd he2 he
        · exact hl
    have hp0g : ∀ c ∈ p0, goodPathChar c := by
      rw [hp0def]
      by_cases hpe : r.path = []
      · rw [if_pos hpe]
        intro c hc
        have hcs : c = '/' := by simpa using hc
        subst hcs
        exact ⟨by decide, by decide, by decide⟩
      · rw [if_neg hpe]
        exact hpg
    have hp0ne : p0 ≠ [] := by
      rw [hp0def]
      by_cases hpe : r.path = []
      · rw [if_pos hpe]
        decide
      · rw [if_neg hpe]
        exact hpe
    have hp1ne : p1 ≠ [] := by
      rw [hp1def]
      exact stripOneSlash_ne_nil hp0ne
    have hp1g : ∀ c ∈ p1, goodPathChar c := by
      rw [hp1def]
      exact fun c hc => hp0g c (stripOneSlash_subset c hc)
    rcases Bool.and_eq_true _ _ ▸ h with ⟨h12, hC0⟩
    rcases Bool.and_eq_true _ _ ▸ h12 with ⟨hA0, hB0⟩
    have hA1 := of_decide_eq_true hA0
    have hB1 := of_decide_eq_true hB0
    by_cases hnl : r.netloc = []
    · have hA : p1.take 2 ≠ ['/', '/'] := hA1 hnl
      cases hcont0 : usesNetlocSchemes.contains s2 with
      | false =>
        have hcne : ¬((decide (r.netloc = []) && usesNetlocSchemes.contains s2 &&
            !p1.isEmpty && decide (p1.take 1 ≠ ['/'])) = true) := by
          rw [hcont0, Bool.and_false, Bool.false_and, Bool.false_and]
          exact Bool.false_ne_true
        rw [if_neg hcne] at hB1 hC0
        have huns := unsplit_plain s2 p1 hs2ne hcont0
        have ho : normalizeUrlL l = s2 ++ ':' :: p1 := by
          simp only [normalizeUrlL, hpr]
          rw [← hs2def, ← hp0def, ← hp1def, hnl, unparse_no_params, huns]
        have hsplit : pyUrlsplitL (normalizeUrlL l) = some ⟨s2, [], p1, [], []⟩ := by
          rw [ho]
          have h2 := urlsplit_unsplit_plain s2 p1 hs2all hs2head hp1g hA
          rw [hs2low] at h2
          exact h2
        have hparse := pyUrlparseL_of_split hsplit hC0
        exact normalize_fixed_of_parse hparse hs2ne hp1ne hB1 (huns.trans ho.symm)
      | true =>
        by_cases hp1t : p1.take 1 = ['/']
        · have hcne : ¬((decide (r.netloc = []) && usesNetlocSchemes.contains s2 &&
              !p1.isEmpty && decide (p1.take 1 ≠ ['/'])) = true) := by
            rw [(decide_eq_false (fun hx => hx hp1t) :
              decide (p1.take 1 ≠ ['/']) = false), Bool.and_false]
            exact Bool.false_ne_true
          rw [if_neg hcne] at hB1 hC0
          have huns := unsplit_empty_uses_slash s2 p1 hs2ne hcont0 hA hp1t
          have ho : normalizeUrlL l = s2 ++ ':' :: '/' :: '/' :: p1 := by
            simp only [normalizeUrlL, hpr]
            rw [← hs2def, ← hp0def, ← hp1def, hnl, unparse_no_params, huns]
          have hsplit : pyUrlsplitL (normalizeUrlL l) = some ⟨s2, [], p1, [], []⟩ := by
            rw [ho]
            have h2 := urlsplit_unsplit_netloc s2 [] p1 hs2all hs2head
              (fun c hc => absurd hc (List.not_mem_nil c)) hp1g hp1t
            rw [hs2low, List.nil_append] at h2
            exact h2
          have hparse := pyUrlparseL_of_split hsplit hC0
          exact normalize_fixed_of_parse hparse hs2ne hp1ne hB1 (huns.trans ho.symm)
        · have hemp : p1.isEmpty = false := by
            cases hp1e : p1 with
            | nil => exact absurd hp1e hp1ne
            | cons a t => rfl
          have hct : (decide (r.netloc = []) && usesNetlocSchemes.contains s2 &&
              !p1.isEmpty && decide (p1.take 1 ≠ ['/'])) = true := by
            rw [decide_eq_true hnl, hcont0, hemp, decide_eq_true hp1t]
            rfl
          rw [if_pos hct] at hB1 hC0
          have huns := unsplit_empty_uses_noslash s2 p1 hs2ne hcont0 hA hp1ne hp1t
          have ho : normalizeUrlL l = s2 ++ ':' :: '/' :: '/' :: '/' :: p1 := by
            simp only [normalizeUrlL, hpr]
            rw [← hs2def, ← hp0def, ← hp1def, hnl, unparse_no_params, huns]
          have hq2 : ('/' :: p1).take 2 ≠ ['/', '/'] := by
            intro hx
            rw [List.take_succ_cons] at hx
            injection hx with h1 h2
            exact hp1t h2
          have hsplit : pyUrlsplitL (normalizeUrlL l) =
              some ⟨s2, [], '/' :: p1, [], []⟩ := by
            rw [ho]
            have h2 := urlsplit_unsplit_netloc s2 [] ('/' :: p1) hs2all hs2head
              (fun c hc => absurd hc (List.not_mem_nil c))
              (fun c hc => by
                rcases List.mem_cons.mp hc with rfl | hc2
                · exact ⟨by decide, by decide, by decide⟩
                · exact hp1g c hc2)
              (by simp)
            rw [hs2low, List.nil_append] at h2
            exact h2
          have huns2 := unsplit_empty_uses_slash s2 ('/' :: p1) hs2ne hcont0 hq2 (by simp)
          have hparse := pyUrlparseL_of_split hsplit hC0
          exact normalize_fixed_of_parse hparse hs2ne (by simp) hB1 (huns2.trans ho.symm)
    · have hp1t : p1.take 1 = ['/'] := by
        rcases hnp hnl with hpe | hph
        · rw [hp1def, hp0def, if_pos hpe]
          decide
        · have hp0h : p0.head? = some '/' := by
            rw [hp0def, if_neg (by intro hx; rw [hx] at hph; simp at hph)]
            exact hph
          refine head_slash_take ?_
          rw [hp1def]
          exact stripOneSlash_head hp0h
      have hcne : ¬((decide (r.netloc = []) && usesNetlocSchemes.contains s2 &&
          !p1.isEmpty && decide (p1.take 1 ≠ ['/'])) = true) := by
        rw [decide_eq_false hnl, Bool.false_and, Bool.false_and, Bool.false_and]
        exact Bool.false_ne_true
      rw [if_neg hcne] at hB1 hC0
      have huns := unsplit_netloc_ne s2 r.netloc p1 hs2ne hnl hp1t
      have ho : normalizeUrlL l = s2 ++ ':' :: '/' :: '/' :: (r.netloc ++ p1) := by
        simp only [normalizeUrlL, hpr]
        rw [← hs2def, ← hp0def, ← hp1def, unparse_no_params, huns]
      have hsplit : pyUrlsplitL (normalizeUrlL l) = some ⟨s2, r.netloc, p1, [], []⟩ := by
        rw [ho]
        have h2 := urlsplit_unsplit_netloc s2 r.netloc p1 hs2all hs2head hnlg hp1g hp1t
        rw [hs2low] at h2
        exact h2
      have hparse := pyUrlparseL_of_split hsplit hC0
      exact normalize_fixed_of_parse hparse hs2ne hp1ne hB1 (huns.trans ho.symm)

/-- C4 (amended): normalize_url is idempotent on every input satisfying
the decidable side condition normalizeIdemOK: the parse must succeed
(in particular the netloc is bracket-free and ASCII, where the parse
model agrees with CPython), and the once-stripped path (slash-prefixed
when urlunsplit prepends a slash) must not still end in a non-root
trailing slash, must not expose a semicolon parameter to re-parsing,
and an empty netloc must not sit before a path starting with a double
slash. -/
theorem c4_normalize_idempotent_conditional (s : String) (h : normalizeIdemOK s = true) :
    normalize_url (normalize_url s) = normalize_url s := by
  unfold normalize_url
  have h2 : (String.mk (normalizeUrlL s.toList)).toList = normalizeUrlL s.toList := rfl
  rw [h2, normalizeUrlL_idem h]

theorem c4_witness :
    normalizeIdemOK "https://x.com/a" = true ∧
      normalize_url (normalize_url "https://x.com/a") = normalize_url "https://x.com/a" :=
  ⟨by decide, c4_normalize_idempotent_conditional "https://x.com/a" (by decide)⟩
